import Mathlib

/-!
Verification of the connexion request-to-argument binding pipeline.

This file embeds the code of `connexion/decorators/parameter.py`,
`connexion/middleware/request_validation.py` and
`connexion/middleware/routing.py` as Lean definitions (Python values become
the inductive `PVal`, Python dicts become association lists with Python
dict update semantics, Python exceptions become `Except`), together with
spec-modelled definitions for helpers of the repository that live outside
the provided sources (`connexion.utils`, `connexion.http_facts`,
`connexion.datastructures`, `connexion.operations`), and proves the frozen
claims about the pipeline.
-/

/-- A Python value, as used by the connexion argument pipeline: `none` is
Python `None`, `dict` is an (insertion-ordered, unique-key) dictionary with
string keys, `list` is a Python list, `num` is a float (modelled as a
rational), `bytes` a byte string. -/
inductive PVal where
  | none : PVal
  | bool : Bool → PVal
  | int : Int → PVal
  | num : Rat → PVal
  | str : String → PVal
  | bytes : List Nat → PVal
  | list : List PVal → PVal
  | dict : List (String × PVal) → PVal
deriving Repr

/-- Errors raised by the embedded Python code: `keyError` models Python
`KeyError` (missing dict key), `typeCoercion` models connexion's
`TypeCoercionError` (raw value cannot be cast to the declared type),
`typeError` models Python `TypeError` (operation on a value of the wrong
shape). -/
inductive Err where
  | keyError : Err
  | typeCoercion : Err
  | typeError : Err
deriving Repr, DecidableEq

/-- Python dict lookup `d[k]` (as an `Option`): first binding of the key. -/
def dGet? (d : List (String × PVal)) (k : String) : Option PVal :=
  match d with
  | [] => Option.none
  | (k', v) :: rest => if k' = k then some v else dGet? rest k

/-- Python dict assignment `d[k] = v`: replaces the binding in place if the
key is present, otherwise appends it (insertion order). -/
def dSet (d : List (String × PVal)) (k : String) (v : PVal) : List (String × PVal) :=
  match d with
  | [] => [(k, v)]
  | (k', v') :: rest => if k' = k then (k', v) :: rest else (k', v') :: dSet rest k v

/-- Python `a.update(b)`: assign every binding of `b` into `a`, in order. -/
def dUpdate (a b : List (String × PVal)) : List (String × PVal) :=
  b.foldl (fun acc kv => dSet acc kv.1 kv.2) a

/-- Python `k in d` for a dict. -/
def dContains (d : List (String × PVal)) (k : String) : Bool :=
  (dGet? d k).isSome

/-- Python truthiness `bool(v)` of a value. -/
def truthy : PVal → Bool
  | PVal.none => false
  | PVal.bool b => b
  | PVal.int n => n != 0
  | PVal.num q => q != 0
  | PVal.str s => s ≠ ""
  | PVal.bytes bs => !bs.isEmpty
  | PVal.list xs => !xs.isEmpty
  | PVal.dict d => !d.isEmpty

/-- Python `v == s` where `s` is a string literal: true only for an equal
string (comparison of a non-string against a string is `False`). -/
def PVal.eqStr : PVal → String → Bool
  | PVal.str s, t => s = t
  | _, _ => false

/-- Dict lookup on a `PVal`: `v[k]`/`v.get(k)` when `v` is a dict,
nothing otherwise. -/
def pdGet? (v : PVal) (k : String) : Option PVal :=
  match v with
  | PVal.dict d => dGet? d k
  | _ => Option.none

/-- Python `k in v` for a `PVal` dict. -/
def pdContains (v : PVal) (k : String) : Bool :=
  (pdGet? v k).isSome

/-- The entry list of a `PVal` dict, `[]` for anything else. -/
def dictOf : PVal → List (String × PVal)
  | PVal.dict d => d
  | _ => []

/-! ### Dict lemmas -/

theorem dGet?_dSet_self (d : List (String × PVal)) (k : String) (v : PVal) :
    dGet? (dSet d k v) k = some v := by
  induction d with
  | nil => simp [dSet, dGet?]
  | cons kv rest ih =>
    obtain ⟨k', v'⟩ := kv
    by_cases h : k' = k <;> simp [dSet, dGet?, h, ih]

theorem dGet?_dSet_ne (d : List (String × PVal)) (k k' : String) (v : PVal)
    (h : k' ≠ k) : dGet? (dSet d k v) k' = dGet? d k' := by
  have hk : ¬ k = k' := fun h0 => h h0.symm
  induction d with
  | nil => simp [dSet, dGet?, hk]
  | cons kv rest ih =>
    obtain ⟨k₀, v₀⟩ := kv
    by_cases h0 : k₀ = k
    · subst h0
      simp [dSet, dGet?, hk]
    · simp only [dSet, if_neg h0, dGet?]
      by_cases h1 : k₀ = k' <;> simp [h1, ih]

/-- Keys present after a `dSet` were present before or are the set key. -/
theorem dGet?_dSet_isSome (d : List (String × PVal)) (k k' : String) (v : PVal)
    (h : (dGet? (dSet d k v) k').isSome) :
    k' = k ∨ (dGet? d k').isSome := by
  by_cases hk : k' = k
  · exact Or.inl hk
  · rw [dGet?_dSet_ne d k k' v hk] at h
    exact Or.inr h

/-! ## Name Sanitizer (`parameter.py`, `sanitized`) -/

/-- The character class `[0-9a-zA-Z_]` (ASCII word characters): what the
inner substitution `re.sub("[^0-9a-zA-Z_]", "", ·)` keeps. -/
def isWordChar (c : Char) : Bool := c.isAlphanum || c = '_'

/-- The character class `[a-zA-Z_]`: what may start the sanitized name;
the outer substitution `re.sub("^[^a-zA-Z_]+", "", ·)` drops the leading
characters outside this class. -/
def isLeadChar (c : Char) : Bool := c.isAlpha || c = '_'

/-- `re.sub(r"\[(?!])", "_", ·)` over a character list: each `[` that is
not immediately followed by `]` becomes `_`. -/
def bracketSub : List Char → List Char
  | [] => []
  | c :: rest =>
    if c = '[' ∧ rest.head? ≠ some ']' then '_' :: bracketSub rest
    else c :: bracketSub rest

/-- `sanitized` from `parameter.py`: `name and re.sub("^[^a-zA-Z_]+", "",
re.sub("[^0-9a-zA-Z_]", "", re.sub(r"\[(?!])", "_", name)))` — the empty
(falsy) string is returned unchanged by the `and`. -/
def sanitized (name : String) : String :=
  if name = "" then name
  else String.mk (((bracketSub name.data).filter isWordChar).dropWhile
    (fun c => !isLeadChar c))

theorem bracketSub_of_no_bracket (l : List Char) (h : '[' ∉ l) :
    bracketSub l = l := by
  induction l with
  | nil => rfl
  | cons c rest ih =>
    simp only [List.mem_cons, not_or] at h
    have hc : ¬ (c = '[') := fun hh => h.1 hh.symm
    simp [bracketSub, hc, ih h.2]

theorem mem_bracketSub_word (l : List Char) (c : Char) (hc : c ∈ l.filter isWordChar) :
    isWordChar c := by
  exact List.of_mem_filter hc

theorem dropWhile_head_lead (l : List Char) (c : Char)
    (h : (l.dropWhile (fun c => !isLeadChar c)).head? = some c) :
    isLeadChar c := by
  induction l with
  | nil => simp [List.dropWhile] at h
  | cons a rest ih =>
    by_cases ha : isLeadChar a
    · simp [List.dropWhile, ha] at h
      simp [← h, ha]
    · simp [List.dropWhile, ha] at h
      exact ih h

theorem dropWhile_of_head_lead (l : List Char)
    (h : ∀ c, l.head? = some c → isLeadChar c) :
    l.dropWhile (fun c => !isLeadChar c) = l := by
  cases l with
  | nil => rfl
  | cons a rest =>
    have := h a rfl
    simp [List.dropWhile, this]

/-- Every character of a sanitized (non-empty-input) name is a word
character. -/
theorem sanitized_mem_word (name : String) (c : Char)
    (hc : c ∈ (sanitized name).data) : isWordChar c := by
  unfold sanitized at hc
  by_cases h : name = ""
  · simp [h] at hc
  · simp only [if_neg h] at hc
    have hsub : (((bracketSub name.data).filter isWordChar).dropWhile
        (fun c => !isLeadChar c)).Sublist ((bracketSub name.data).filter isWordChar) :=
      List.dropWhile_sublist _
    exact List.of_mem_filter (hsub.mem hc)

theorem sanitized_fixed (s : String)
    (hw : ∀ c ∈ s.data, isWordChar c)
    (hh : ∀ c, s.data.head? = some c → isLeadChar c) :
    sanitized s = s := by
  by_cases hs : s = ""
  · simp [sanitized, hs]
  · have hnb : '[' ∉ s.data := by
      intro hmem
      exact absurd (hw _ hmem) (by decide)
    have h1 : bracketSub s.data = s.data := bracketSub_of_no_bracket _ hnb
    have h2 : s.data.filter isWordChar = s.data :=
      List.filter_eq_self.mpr (fun c hc => hw c hc)
    have h3 : s.data.dropWhile (fun c => !isLeadChar c) = s.data :=
      dropWhile_of_head_lead _ (fun c hc => hh c hc)
    simp only [sanitized, if_neg hs, h1, h2, h3]

theorem sanitized_head_lead (x : String) (c : Char)
    (h : (sanitized x).data.head? = some c) : isLeadChar c := by
  unfold sanitized at h
  by_cases hx : x = ""
  · rw [if_pos hx] at h
    rw [hx] at h
    simp at h
  · rw [if_neg hx] at h
    exact dropWhile_head_lead _ c h

/-- Claim C5: sanitizing is idempotent — `sanitized (sanitized x) =
sanitized x` for every name `x` — and the sanitized name never starts with
a digit or symbol: its first character, when the result is non-empty, is an
ASCII letter or an underscore (`isLeadChar`). -/
theorem sanitized_idempotent_and_lead_c5 (x : String) :
    sanitized (sanitized x) = sanitized x ∧
      ∀ c, (sanitized x).data.head? = some c → isLeadChar c = true := by
  refine ⟨?_, fun c hc => sanitized_head_lead x c hc⟩
  exact sanitized_fixed (sanitized x) (fun c hc => sanitized_mem_word x c hc)
    (fun c hc => sanitized_head_lead x c hc)

/-! ## Spec-modelled helpers (`connexion.utils`, `connexion.http_facts`)

The modules `connexion/utils.py` and `connexion/http_facts.py` are part of
this repository but are not among the provided sources; the definitions in
this section are modelled from the spec. -/

/-- Modelled from the spec: `connexion.utils.is_null` (not under `src/`).
Spec 4.1: a raw value "represents null" when it is the explicit null
marker (`None`), the empty string, or the literal null token used by the
transport (`"null"`, Python's `"None"`), modulo surrounding whitespace. -/
def is_null : PVal → Bool
  | PVal.none => true
  | PVal.str s => s.trim = "" || s.trim = "null" || s.trim = "None"
  | _ => false

/-- Modelled from the spec: `connexion.utils.is_nullable` (not under
`src/`). Spec 4.1/3: a schema "marks the field nullable" through its
`nullable` flag. -/
def is_nullable (schema : PVal) : Bool :=
  truthy ((pdGet? schema "nullable").getD (PVal.bool false))

/-- Modelled from the spec: `connexion.http_facts.FORM_CONTENT_TYPES`
(not under `src/`) — the form/multipart body content types. -/
def FORM_CONTENT_TYPES : List String :=
  ["application/x-www-form-urlencoded", "multipart/form-data"]

/-- Parse an optional ASCII sign followed by at least one decimal digit. -/
def parseSignedDigits (s : List Char) : Option Int :=
  let (sign, digits) :=
    match s with
    | '+' :: rest => (1, rest)
    | '-' :: rest => (-1, rest)
    | _ => ((1 : Int), s)
  if digits.isEmpty || !digits.all Char.isDigit then Option.none
  else some (sign * (digits.foldl (fun acc c => acc * 10 + (c.toNat - '0'.toNat)) 0 : Nat))

/-- Modelled from the spec: the `integer` branch of
`connexion.utils.make_type` (not under `src/`): parse the raw value as an
integer; an unparsable value fails with `TypeCoercionError`. -/
def parseIntegerValue : PVal → Except Err Int
  | PVal.int n => Except.ok n
  | PVal.bool b => Except.ok (if b then 1 else 0)
  | PVal.str s =>
    match parseSignedDigits s.trim.data with
    | some n => Except.ok n
    | Option.none => Except.error Err.typeCoercion
  | _ => Except.error Err.typeCoercion

/-- Modelled from the spec: the `number` branch of
`connexion.utils.make_type` (not under `src/`): parse the raw value as a
floating-point number (a decimal literal with optional sign and optional
fractional part, modelled exactly as a rational). -/
def parseNumberValue : PVal → Except Err Rat
  | PVal.int n => Except.ok (n : Rat)
  | PVal.num q => Except.ok q
  | PVal.str s =>
    let t := s.trim.data
    let (sign, rest) :=
      match t with
      | '+' :: r => ((1 : Rat), r)
      | '-' :: r => ((-1 : Rat), r)
      | _ => ((1 : Rat), t)
    let intPart := rest.takeWhile Char.isDigit
    let remainder := rest.dropWhile Char.isDigit
    let asNat (l : List Char) : Nat := l.foldl (fun acc c => acc * 10 + (c.toNat - '0'.toNat)) 0
    match remainder with
    | [] =>
      if intPart.isEmpty then Except.error Err.typeCoercion
      else Except.ok (sign * (asNat intPart : Rat))
    | '.' :: frac =>
      if !frac.all Char.isDigit || (intPart.isEmpty && frac.isEmpty) then
        Except.error Err.typeCoercion
      else
        Except.ok (sign * ((asNat intPart : Rat) + (asNat frac : Rat) / ((10 : Rat) ^ frac.length)))
    | _ => Except.error Err.typeCoercion
  | _ => Except.error Err.typeCoercion

/-- Modelled from the spec: `connexion.utils.make_type` (not under
`src/`). Spec 4.1: coerce a scalar using `(type, format)`: `integer` →
integer parse, `number` → floating-point parse, `boolean` →
case-insensitive mapping of `"true"`/`"false"`/`"1"`/`"0"`,
`string` with `format` `binary`/`byte` → pass-through bytes, plain
`string` → pass-through; a raw value that cannot be parsed as the declared
type fails with `TypeCoercionError`. A type outside the spec's fixed
enumeration passes the value through. -/
def make_type (value : PVal) (type_ : PVal) (format_ : Option PVal) : Except Err PVal :=
  if type_.eqStr "integer" then (parseIntegerValue value).map PVal.int
  else if type_.eqStr "number" then (parseNumberValue value).map PVal.num
  else if type_.eqStr "boolean" then
    match value with
    | PVal.bool b => Except.ok (PVal.bool b)
    | PVal.str s =>
      if s.toLower = "true" || s.toLower = "1" then Except.ok (PVal.bool true)
      else if s.toLower = "false" || s.toLower = "0" then Except.ok (PVal.bool false)
      else Except.error Err.typeCoercion
    | _ => Except.error Err.typeCoercion
  else if type_.eqStr "string" then
    match format_ with
    | some f =>
      if f.eqStr "binary" || f.eqStr "byte" then Except.ok value
      else Except.ok value
    | Option.none => Except.ok value
  else Except.ok value

/-- `Option.some` result or raise the given error (Python dict subscript
`d[k]`, raising `KeyError` when the key is missing). -/
def keyOrErr (e : Err) : Option PVal → Except Err PVal
  | some v => Except.ok v
  | Option.none => Except.error e

/-- Left-to-right effectful map over a list, as evaluated by a Python list
comprehension: the first raised error aborts the whole comprehension. -/
def mapExcept (f : PVal → Except Err PVal) : List PVal → Except Err (List PVal)
  | [] => Except.ok []
  | x :: xs =>
    match f x with
    | Except.error e => Except.error e
    | Except.ok y =>
      match mapExcept f xs with
      | Except.error e => Except.error e
      | Except.ok ys => Except.ok (y :: ys)

/-! ## Type coercion (`parameter.py`, `_get_val_from_param`) -/

/-- `_get_val_from_param` from `parameter.py`: cast a value according to
its definition in the specification. The schema is
`param_definitions.get("schema", param_definitions)`; a nullable schema
with a null raw value yields `None`; an `array` schema coerces each
element of the value through the `items` schema's type and format; any
other schema coerces the scalar through the schema's own type and
format. Missing `"type"`/`"items"` keys raise `KeyError` as in Python. -/
def _get_val_from_param (value : PVal) (param_definitions : PVal) : Except Err PVal :=
  let param_schema := (pdGet? param_definitions "schema").getD param_definitions
  if is_nullable param_schema && is_null value then Except.ok PVal.none
  else do
    let type_v ← keyOrErr Err.keyError (pdGet? param_schema "type")
    if type_v.eqStr "array" then do
      let items ← keyOrErr Err.keyError (pdGet? param_schema "items")
      let item_type ← keyOrErr Err.keyError (pdGet? items "type")
      let item_format := pdGet? items "format"
      match value with
      | PVal.list parts => (mapExcept (fun part => make_type part item_type item_format) parts).map PVal.list
      | _ => Except.error Err.typeError
    else
      make_type value type_v (pdGet? param_schema "format")

/-- Reduction of an `Except` bind on a success value. -/
theorem ebind_ok {α β : Type} (a : α) (f : α → Except Err β) :
    (Except.ok a >>= f) = f a := rfl

theorem mapExcept_ok_spec (f : PVal → Except Err PVal) :
    ∀ (xs ys : List PVal), mapExcept f xs = Except.ok ys →
      ys.length = xs.length ∧
      ∀ i (hx : i < xs.length) (hy : i < ys.length),
        f (xs.get ⟨i, hx⟩) = Except.ok (ys.get ⟨i, hy⟩) := by
  intro xs
  induction xs with
  | nil =>
    intro ys h
    simp only [mapExcept, Except.ok.injEq] at h
    subst h
    exact ⟨rfl, fun i hx _ => absurd hx (by simp)⟩
  | cons x xs ih =>
    intro ys h
    simp only [mapExcept] at h
    cases hfx : f x with
    | error e => rw [hfx] at h; exact absurd h (by simp)
    | ok y =>
      rw [hfx] at h
      cases hm : mapExcept f xs with
      | error e => rw [hm] at h; exact absurd h (by simp)
      | ok ys' =>
        rw [hm] at h
        simp only [Except.ok.injEq] at h
        subst h
        obtain ⟨hlen, hget⟩ := ih ys' hm
        refine ⟨by simp [hlen], ?_⟩
        intro i hx hy
        cases i with
        | zero => simpa using hfx
        | succ n => simpa using hget n (by simpa using hx) (by simpa [hlen] using hy)

/-- Claim C6: for every array-typed parameter schema and every list raw
value, `_get_val_from_param` maps the element coercion (the items
schema's type and format, through `make_type`) over the elements from
left to right, and a successful coercion returns a list of the same
length as the input in which the element at every index is the coercion
of the input element at that same index. -/
theorem array_coercion_order_c6 (defn items item_type : PVal) (xs : List PVal)
    (hty : pdGet? ((pdGet? defn "schema").getD defn) "type" = some (PVal.str "array"))
    (hitems : pdGet? ((pdGet? defn "schema").getD defn) "items" = some items)
    (hitty : pdGet? items "type" = some item_type) :
    _get_val_from_param (PVal.list xs) defn =
      (mapExcept (fun part => make_type part item_type (pdGet? items "format")) xs).map PVal.list ∧
    ∀ ys, _get_val_from_param (PVal.list xs) defn = Except.ok (PVal.list ys) →
      ys.length = xs.length ∧
      ∀ i (hx : i < xs.length) (hy : i < ys.length),
        make_type (xs.get ⟨i, hx⟩) item_type (pdGet? items "format") =
          Except.ok (ys.get ⟨i, hy⟩) := by
  have hmain : _get_val_from_param (PVal.list xs) defn =
      (mapExcept (fun part => make_type part item_type (pdGet? items "format")) xs).map PVal.list := by
    unfold _get_val_from_param
    simp [is_null, keyOrErr, ebind_ok, PVal.eqStr, hty, hitems, hitty]
  refine ⟨hmain, ?_⟩
  intro ys h
  rw [hmain] at h
  cases hm : mapExcept (fun part => make_type part item_type (pdGet? items "format")) xs with
  | error e => rw [hm] at h; exact absurd h (by simp [Except.map])
  | ok zs =>
    rw [hm] at h
    simp only [Except.map, Except.ok.injEq, PVal.list.injEq] at h
    subst h
    exact mapExcept_ok_spec _ xs zs hm

/-! ## Operation model and defaults (`parameter.py`) -/

/-- Modelled from the spec: the read-only Operation object
(`connexion.operations`, not under `src/`). Spec 3: an operation carries
the HTTP method, the ordered parameter definitions, the body schema per
content type (`body_schema(content_type)`; `body_schema()` with no
argument resolves for the default content type, modelled as the `none`
index), the conventional body-argument name for a content type
(`body_name`), the declared consumed content types, and whether the
specification is the legacy Swagger 2 version (`isinstance(operation,
Swagger2Operation)`). -/
structure Operation where
  method : String
  parameters : List PVal
  body_name : String → String
  body_schema : Option String → PVal
  consumes : List String
  isSwagger2 : Bool

theorem dGet?_sizeOf_lt (d : List (String × PVal)) (k : String) (v : PVal)
    (h : dGet? d k = some v) : sizeOf v < sizeOf d := by
  induction d with
  | nil => simp [dGet?] at h
  | cons kv rest ih =>
    obtain ⟨k', v'⟩ := kv
    simp only [dGet?] at h
    by_cases hk : k' = k
    · rw [if_pos hk] at h
      injection h with h
      subst h
      simp only [List.cons.sizeOf_spec, Prod.mk.sizeOf_spec]
      omega
    · rw [if_neg hk] at h
      have := ih h
      simp only [List.cons.sizeOf_spec]
      omega

theorem pdGet?_sizeOf_lt (p : PVal) (k : String) (v : PVal)
    (h : pdGet? p k = some v) : sizeOf v < sizeOf p := by
  cases p <;> simp only [pdGet?] at h <;> try exact absurd h (by simp)
  case dict d =>
    have := dGet?_sizeOf_lt d k v h
    simp only [PVal.dict.sizeOf_spec]
    omega

/-- `_build_default_obj_recursive` from `parameter.py`: takes disparate
and nested default keys and builds up a default object. For each property
in order: a property-level `default` (for a name not yet present) is
(shallow-)copied into the accumulator; an `object`-typed property with
`properties` recurses into the accumulator entry for that name (created
as `{}` by `setdefault` when absent). -/
def _build_default_obj_recursive : List (String × PVal) → List (String × PVal) → List (String × PVal)
  | [], default_object => default_object
  | (name, property_) :: rest, default_object =>
    let default_object' :=
      if pdContains property_ "default" && !(dContains default_object name) then
        dSet default_object name ((pdGet? property_ "default").getD PVal.none)
      else
        match hp : pdGet? property_ "properties" with
        | some (PVal.dict props) =>
          if ((pdGet? property_ "type").getD PVal.none).eqStr "object" then
            let dobj := if dContains default_object name then default_object
              else dSet default_object name (PVal.dict [])
            let cur := dictOf ((dGet? dobj name).getD (PVal.dict []))
            dSet dobj name (PVal.dict (_build_default_obj_recursive props cur))
          else default_object
        | _ => default_object
    _build_default_obj_recursive rest default_object'
termination_by properties _ => sizeOf properties
decreasing_by
  · have h1 := pdGet?_sizeOf_lt property_ "properties" (PVal.dict props) hp
    simp only [PVal.dict.sizeOf_spec] at h1
    simp only [List.cons.sizeOf_spec, Prod.mk.sizeOf_spec]
    omega
  · simp only [List.cons.sizeOf_spec, Prod.mk.sizeOf_spec]
    omega

/-- `_get_default_obj` from `parameter.py`: the (deep-copied) schema-level
`default` when present, else the object recursively built from the
schema's `properties` (starting from a fresh `{}`). In this pure value
model a deep copy is the value itself. -/
def _get_default_obj (schema : PVal) : PVal :=
  match pdGet? schema "default" with
  | some d => d
  | Option.none =>
    PVal.dict (_build_default_obj_recursive
      (dictOf ((pdGet? schema "properties").getD (PVal.dict []))) [])

/-- The per-parameter branch of `_get_query_defaults`: the parameter-level
`default` when present; else, for an `object`-typed schema, the
synthesized default object; else the schema-level `default`; `none` when
a dict subscript in the branch raises `KeyError` (the entry is skipped). -/
def queryDefaultFor (v : PVal) : Option PVal :=
  if pdContains v "default" then pdGet? v "default"
  else
    match pdGet? v "schema" with
    | Option.none => Option.none
    | some schema =>
      match pdGet? schema "type" with
      | Option.none => Option.none
      | some ty =>
        if ty.eqStr "object" then some (_get_default_obj schema)
        else pdGet? schema "default"

/-- `_get_query_defaults` from `parameter.py`: the default values for the
query parameters from the parameter definitions, skipping parameters
whose branch raises `KeyError`. -/
def _get_query_defaults (query_definitions : List (String × PVal)) : List (String × PVal) :=
  query_definitions.foldl (fun defaults kv =>
    match queryDefaultFor kv.2 with
    | some d => dSet defaults kv.1 d
    | Option.none => defaults) []

mutual

/-- Merging an incoming value over an existing one: two mappings merge
recursively, anything else is overridden by the incoming value. -/
def deepMergeVal : PVal → PVal → PVal
  | PVal.dict ad, PVal.dict bd => PVal.dict (deepMergeList ad bd)
  | _, b => b
termination_by a b => 2 * sizeOf b
decreasing_by
  simp only [PVal.dict.sizeOf_spec]
  omega

/-- One key of the merge: when the key already exists the values merge
through `deepMergeVal`, else the incoming value is taken. -/
def deepMergeStep : Option PVal → PVal → PVal
  | some old, v => deepMergeVal old v
  | Option.none, v => v
termination_by o v => 2 * sizeOf v + 1
decreasing_by
  omega

/-- The entry loop of the merge, assigning each incoming binding over
the accumulated mapping. -/
def deepMergeList (a : List (String × PVal)) : List (String × PVal) → List (String × PVal)
  | [] => a
  | (k, v) :: rest => deepMergeList (dSet a k (deepMergeStep (dGet? a k) v)) rest
termination_by b => 2 * sizeOf b
decreasing_by
  · simp only [List.cons.sizeOf_spec, Prod.mk.sizeOf_spec]
    omega
  · simp only [List.cons.sizeOf_spec]
    omega

end

/-- Modelled from the spec: `connexion.utils.deep_merge` (not under
`src/`). Spec 4.3: recursively merge nested mappings key-by-key, the
incoming (second) mapping overriding at the leaves; `deep_merge a b`
merges `b` into `a`. -/
def deep_merge (a b : List (String × PVal)) : List (String × PVal) :=
  deepMergeList a b

/-! ## Argument extraction (`parameter.py`) -/

/-- The dict comprehension `{parameter["name"]: parameter for parameter
in parameters if parameter["in"] == loc}`: missing `"in"`/`"name"` keys
raise `KeyError`; a non-string name is rejected (names of OpenAPI
parameters are strings). -/
def paramDictGo (loc : String) : List PVal → List (String × PVal) → Except Err (List (String × PVal))
  | [], acc => Except.ok acc
  | p :: rest, acc => do
    let inv ← keyOrErr Err.keyError (pdGet? p "in")
    if inv.eqStr loc then do
      let namev ← keyOrErr Err.keyError (pdGet? p "name")
      match namev with
      | PVal.str n => paramDictGo loc rest (dSet acc n p)
      | _ => Except.error Err.typeError
    else paramDictGo loc rest acc

def paramDict (parameters : List PVal) (loc : String) : Except Err (List (String × PVal)) :=
  paramDictGo loc parameters []

/-- The loop of `_get_path_arguments`: declared path parameters are
coerced through their definition, undeclared ones pass through raw
(routing-injected values); keys are sanitized. -/
def pathArgsGo (path_definitions : List (String × PVal)) (sanitize : String → String) :
    List (String × PVal) → List (String × PVal) → Except Err (List (String × PVal))
  | [], kwargs => Except.ok kwargs
  | (name, value) :: rest, kwargs => do
    let sanitized_key := sanitize name
    match dGet? path_definitions name with
    | some defn => do
      let v ← _get_val_from_param value defn
      pathArgsGo path_definitions sanitize rest (dSet kwargs sanitized_key v)
    | Option.none => pathArgsGo path_definitions sanitize rest (dSet kwargs sanitized_key value)

/-- `_get_path_arguments` from `parameter.py`. -/
def _get_path_arguments (path_params : List (String × PVal)) (operation : Operation)
    (sanitize : String → String) : Except Err (List (String × PVal)) := do
  let path_definitions ← paramDict operation.parameters "path"
  pathArgsGo path_definitions sanitize path_params []

/-- The loop of `_query_args_helper`: a key whose sanitized form is not a
declared handler argument (without kwargs) is dropped; a key with no
matching declared query parameter is dropped (logged); otherwise the
value is coerced through the matching definition. -/
def queryArgsGo (query_definitions : List (String × PVal)) (function_arguments : List String)
    (has_kwargs : Bool) (sanitize : String → String) :
    List (String × PVal) → List (String × PVal) → Except Err (List (String × PVal))
  | [], result => Except.ok result
  | (key, value) :: rest, result =>
    let sanitized_key := sanitize key
    if !has_kwargs && !(function_arguments.contains sanitized_key) then
      queryArgsGo query_definitions function_arguments has_kwargs sanitize rest result
    else
      match dGet? query_definitions key with
      | Option.none =>
        queryArgsGo query_definitions function_arguments has_kwargs sanitize rest result
      | some query_defn => do
        let v ← _get_val_from_param value query_defn
        queryArgsGo query_definitions function_arguments has_kwargs sanitize rest
          (dSet result sanitized_key v)

/-- `_query_args_helper` from `parameter.py`. -/
def _query_args_helper (query_definitions query_arguments : List (String × PVal))
    (function_arguments : List String) (has_kwargs : Bool) (sanitize : String → String) :
    Except Err (List (String × PVal)) :=
  queryArgsGo query_definitions function_arguments has_kwargs sanitize query_arguments []

/-- `_get_query_arguments` from `parameter.py`: defaults are resolved,
deep-merged with the incoming query parameters (incoming values
override), then filtered and coerced by `_query_args_helper`. -/
def _get_query_arguments (query_params : List (String × PVal)) (operation : Operation)
    (arguments : List String) (has_kwargs : Bool) (sanitize : String → String) :
    Except Err (List (String × PVal)) := do
  let query_definitions ← paramDict operation.parameters "query"
  let default_query_params := _get_query_defaults query_definitions
  let query_arguments := deep_merge default_query_params query_params
  _query_args_helper query_definitions query_arguments arguments has_kwargs sanitize

/-- `_get_body_argument_json` from `parameter.py`: a nullable body schema
with a null body yields `None`; an absent (`None`) body yields the
schema's (deep-copied) `default`, `{}` when the schema has none;
otherwise the parsed body passes through unchanged. -/
def _get_body_argument_json (body : PVal) (operation : Operation) (content_type : String) : PVal :=
  if is_nullable (operation.body_schema (some content_type)) && is_null body then PVal.none
  else
    match body with
    | PVal.none => (pdGet? (operation.body_schema (some content_type)) "default").getD (PVal.dict [])
    | _ => body

/-- The loop of `_get_typed_body_values`: for each body field, a declared
property coerces through its schema; a `KeyError` (unknown field, or a
definition without `"type"`) falls back to the `additionalProperties`
policy: falsy → drop the field, schema → coerce through it, otherwise →
pass the raw value through. -/
def typedBodyGo (body_props : List (String × PVal)) (additional_props : PVal)
    (additional_props_defn : Option PVal) :
    List (String × PVal) → List (String × PVal) → Except Err (List (String × PVal))
  | [], res => Except.ok res
  | (key, value) :: rest, res =>
    match (do
        let prop_defn ← keyOrErr Err.keyError (dGet? body_props key)
        _get_val_from_param value prop_defn : Except Err PVal) with
    | Except.ok v => typedBodyGo body_props additional_props additional_props_defn rest (dSet res key v)
    | Except.error Err.keyError =>
      if !truthy additional_props then
        typedBodyGo body_props additional_props additional_props_defn rest res
      else
        match additional_props_defn with
        | some defn =>
          match _get_val_from_param value defn with
          | Except.ok v =>
            typedBodyGo body_props additional_props additional_props_defn rest (dSet res key v)
          | Except.error e => Except.error e
        | Option.none =>
          typedBodyGo body_props additional_props additional_props_defn rest (dSet res key value)
    | Except.error e => Except.error e

/-- `_get_typed_body_values` from `parameter.py`: a copy of `body_arg`
whose values are typed per the provided schemas. -/
def _get_typed_body_values (body_arg body_props : List (String × PVal)) (additional_props : PVal) :
    Except Err (List (String × PVal)) :=
  let additional_props_defn : Option PVal :=
    match additional_props with
    | PVal.dict d => some (PVal.dict [("schema", PVal.dict d)])
    | _ => Option.none
  typedBodyGo body_props additional_props additional_props_defn body_arg []

/-- `_get_body_argument_form` from `parameter.py`: the schema default
body merged (via dict `update`) with the parsed form fields, then typed
per the `properties`/`additionalProperties` schemas; `{}` when there are
no properties and `additionalProperties` is falsy. Note the source reads
`additionalProperties` from `body_schema()` without a content type. -/
def _get_body_argument_form (body : PVal) (operation : Operation) (content_type : String) :
    Except Err (List (String × PVal)) :=
  let default_body := (pdGet? (operation.body_schema (some content_type)) "default").getD (PVal.dict [])
  let body_props := (dictOf ((pdGet? (operation.body_schema (some content_type)) "properties").getD
    (PVal.dict []))).foldl (fun acc kv => dSet acc kv.1 (PVal.dict [("schema", kv.2)])) []
  let additional_props := (pdGet? (operation.body_schema Option.none) "additionalProperties").getD
    (PVal.bool true)
  let body_arg := dUpdate (dictOf default_body) (if truthy body then dictOf body else [])
  if !body_props.isEmpty || truthy additional_props then
    _get_typed_body_values body_arg body_props additional_props
  else Except.ok []

/-- `_get_body_argument` from `parameter.py`: nothing when the handler
declares no parameters and takes no kwargs; for a form content type the
form body is computed and, for a Swagger 2 operation, returned unpacked
(raw when kwargs are accepted, else sanitized and filtered to declared
arguments) — otherwise the computed body is returned under the sanitized
body name when that name is declared or kwargs are accepted, and dropped
entirely otherwise. -/
def _get_body_argument (body : PVal) (operation : Operation) (arguments : List String)
    (has_kwargs : Bool) (sanitize : String → String) (content_type : String) :
    Except Err (List (String × PVal)) :=
  if arguments.isEmpty && !has_kwargs then Except.ok []
  else
    let body_name := sanitize (operation.body_name content_type)
    if FORM_CONTENT_TYPES.contains content_type then do
      let result ← _get_body_argument_form body operation content_type
      if FORM_CONTENT_TYPES.contains content_type && operation.isSwagger2 then
        if has_kwargs then pure result
        else pure (result.foldl (fun acc kv =>
          if arguments.contains (sanitize kv.1) then dSet acc (sanitize kv.1) kv.2 else acc) [])
      else
        if arguments.contains body_name || has_kwargs then pure [(body_name, PVal.dict result)]
        else pure []
    else
      let result := _get_body_argument_json body operation content_type
      if arguments.contains body_name || has_kwargs then Except.ok [(body_name, result)]
      else Except.ok []

/-- `_get_file_arguments` from `parameter.py`. -/
def _get_file_arguments (files : List (String × PVal)) (arguments : List String)
    (has_kwargs : Bool) : List (String × PVal) :=
  files.foldl (fun acc kv =>
    if arguments.contains kv.1 || has_kwargs then dSet acc kv.1 kv.2 else acc) []

/-- Python `str.upper()` (ASCII, as used on HTTP method names). -/
def strUpper (s : String) : String := String.mk (s.data.map Char.toUpper)

/-- `get_arguments` from `parameter.py`: path arguments, then query
arguments, then — only for `PATCH`/`POST`/`PUT` — body and file
arguments, accumulated by dict `update`. -/
def get_arguments (operation : Operation) (path_params query_params : List (String × PVal))
    (body : PVal) (files : List (String × PVal)) (arguments : List String) (has_kwargs : Bool)
    (sanitize : String → String) (content_type : String) : Except Err (List (String × PVal)) := do
  let pa ← _get_path_arguments path_params operation sanitize
  let ret := dUpdate [] pa
  let qa ← _get_query_arguments query_params operation arguments has_kwargs sanitize
  let ret := dUpdate ret qa
  if ["PATCH", "POST", "PUT"].contains (strUpper operation.method) then
    let ba ← _get_body_argument body operation arguments has_kwargs sanitize content_type
    let ret := dUpdate ret ba
    pure (dUpdate ret (_get_file_arguments files arguments has_kwargs))
  else
    pure ret

/-- `CONTEXT_NAME` from `parameter.py`. -/
def CONTEXT_NAME : String := "context_"

/-- The normalized request as consumed by `prep_kwargs`: resolved path
parameters, query parameters, uploaded files, the mutable per-request
context bag, and the content type. -/
structure Request where
  path_params : List (String × PVal)
  query_params : List (String × PVal)
  files : List (String × PVal)
  context : List (String × PVal)
  content_type : String

/-- `prep_kwargs` from `parameter.py`: the extracted arguments with all
keys sanitized, then every context entry whose key is a declared handler
argument (or when kwargs are accepted) written on top, then — when the
handler declares a parameter named `context_` — the full context mapping
under that name. -/
def prep_kwargs (request : Request) (operation : Operation) (request_body : PVal)
    (arguments : List String) (has_kwargs : Bool) (sanitize : String → String) :
    Except Err (List (String × PVal)) := do
  let kwargs ← get_arguments operation request.path_params request.query_params request_body
    request.files arguments has_kwargs sanitize request.content_type
  let kwargs := kwargs.foldl (fun acc kv => dSet acc (sanitize kv.1) kv.2) []
  let kwargs := request.context.foldl (fun acc kv =>
    if has_kwargs || arguments.contains kv.1 then dSet acc kv.1 kv.2 else acc) kwargs
  let kwargs := if arguments.contains CONTEXT_NAME then
      dSet kwargs CONTEXT_NAME (PVal.dict request.context)
    else kwargs
  Except.ok kwargs

/-- Claim C2: for a JSON-like body, if the operation's body schema is
nullable and the body is null, the body argument value is `None`; else if
the body is absent (`None`), the value is the schema's `default` (`{}`
when the schema has none); else the value is the parsed body unchanged. -/
theorem body_argument_json_c2 (operation : Operation) (content_type : String) (body : PVal) :
    ((is_nullable (operation.body_schema (some content_type)) && is_null body) = true →
      _get_body_argument_json body operation content_type = PVal.none) ∧
    ((is_nullable (operation.body_schema (some content_type)) && is_null body) = false →
      body = PVal.none →
      _get_body_argument_json body operation content_type =
        (pdGet? (operation.body_schema (some content_type)) "default").getD (PVal.dict [])) ∧
    ((is_nullable (operation.body_schema (some content_type)) && is_null body) = false →
      body ≠ PVal.none →
      _get_body_argument_json body operation content_type = body) := by
  refine ⟨?_, ?_, ?_⟩
  · intro h
    simp [_get_body_argument_json, h]
  · intro h hb
    subst hb
    simp [_get_body_argument_json, h]
  · intro h hb
    simp only [_get_body_argument_json, h, Bool.false_eq_true, if_false]

/-- A concrete operation for the C2 witness: a `POST` with a nullable
JSON body schema carrying a `default`. -/
def c2op : Operation where
  method := "POST"
  parameters := []
  body_name := fun _ => "body"
  body_schema := fun _ =>
    PVal.dict [("nullable", PVal.bool true), ("default", PVal.dict [("a", PVal.int 1)])]
  consumes := ["application/json"]
  isSwagger2 := false

theorem body_argument_json_c2_witness :
    _get_body_argument_json PVal.none c2op "application/json" = PVal.none ∧
    _get_body_argument_json (PVal.int 7) c2op "application/json" = PVal.int 7 :=
  ⟨(body_argument_json_c2 c2op "application/json" PVal.none).1 (by rfl),
   (body_argument_json_c2 c2op "application/json" (PVal.int 7)).2.2 (by rfl)
     (by intro h; exact PVal.noConfusion h)⟩

/-- Every key of the Swagger 2 form-unpacking fold is a declared handler
argument (or was already so in the accumulator). -/
theorem foldFilter_keys (arguments : List String) (san : String → String)
    (l : List (String × PVal)) (acc : List (String × PVal)) (k : String)
    (hacc : (dGet? acc k).isSome → arguments.contains k = true)
    (h : (dGet? (l.foldl (fun acc kv =>
        if arguments.contains (san kv.1) then dSet acc (san kv.1) kv.2 else acc) acc) k).isSome) :
    arguments.contains k = true := by
  induction l generalizing acc with
  | nil => exact hacc h
  | cons kv rest ih =>
    simp only [List.foldl] at h
    by_cases hc : arguments.contains (san kv.1) = true
    · rw [if_pos hc] at h
      refine ih _ ?_ h
      intro hk
      rcases dGet?_dSet_isSome _ _ _ _ hk with he | hs
      · subst he
        exact hc
      · exact hacc hs
    · rw [if_neg hc] at h
      exact ih _ hacc h

/-- A key that is not a declared handler argument is absent from the
Swagger 2 form-unpacking fold. -/
theorem foldFilter_not_contained (arguments : List String) (san : String → String)
    (l : List (String × PVal)) (k : String) (hk : arguments.contains k = false) :
    dGet? (l.foldl (fun acc kv =>
      if arguments.contains (san kv.1) then dSet acc (san kv.1) kv.2 else acc) []) k =
      Option.none := by
  cases hd : dGet? (l.foldl (fun acc kv =>
      if arguments.contains (san kv.1) then dSet acc (san kv.1) kv.2 else acc) []) k with
  | none => rfl
  | some v =>
    have hsome : (dGet? (l.foldl (fun acc kv =>
        if arguments.contains (san kv.1) then dSet acc (san kv.1) kv.2 else acc) []) k).isSome := by
      rw [hd]
      rfl
    have := foldFilter_keys arguments san l [] k (by intro hx; simp [dGet?] at hx) hsome
    rw [this] at hk
    exact absurd hk (by simp)

/-- Claim C4: a body argument is produced only for the methods
`POST`/`PUT`/`PATCH` — for any other method `get_arguments` is
independent of the body, the files and the content type — and the
computed body value appears under the sanitized body name only if that
name is a declared handler argument or kwargs are accepted: otherwise
the body-argument mapping contains no entry for the body name at all
(for a non-form content type it is empty), while in the positive
non-form case the body value is returned exactly under the body name. -/
theorem body_method_and_name_gate_c4 :
    (∀ (operation : Operation) (pp qp : List (String × PVal)) (body body' : PVal)
      (files files' : List (String × PVal)) (args : List String) (kw : Bool)
      (san : String → String) (ct ct' : String),
      (["PATCH", "POST", "PUT"].contains (strUpper operation.method)) = false →
      get_arguments operation pp qp body files args kw san ct =
        get_arguments operation pp qp body' files' args kw san ct') ∧
    (∀ (body : PVal) (operation : Operation) (args : List String) (kw : Bool)
      (san : String → String) (ct : String) (d : List (String × PVal)),
      (args.contains (san (operation.body_name ct)) || kw) = false →
      _get_body_argument body operation args kw san ct = Except.ok d →
      dGet? d (san (operation.body_name ct)) = Option.none) ∧
    (∀ (body : PVal) (operation : Operation) (args : List String) (kw : Bool)
      (san : String → String) (ct : String),
      FORM_CONTENT_TYPES.contains ct = false →
      (args.contains (san (operation.body_name ct)) || kw) = true →
      _get_body_argument body operation args kw san ct =
        Except.ok [(san (operation.body_name ct), _get_body_argument_json body operation ct)]) := by
  refine ⟨?_, ?_, ?_⟩
  · intro operation pp qp body body' files files' args kw san ct ct' hm
    have hm' : ¬(strUpper operation.method = "PATCH" ∨ strUpper operation.method = "POST" ∨
        strUpper operation.method = "PUT") := by simpa using hm
    simp [get_arguments, hm']
  · intro body operation args kw san ct d hguard h
    simp only [Bool.or_eq_false_iff] at hguard
    obtain ⟨hbn, hkw⟩ := hguard
    unfold _get_body_argument at h
    by_cases hempty : (args.isEmpty && !kw) = true
    · rw [if_pos hempty] at h
      injection h with h
      subst h
      rfl
    · rw [if_neg hempty] at h
      by_cases hform : FORM_CONTENT_TYPES.contains ct = true
      · rw [if_pos hform] at h
        cases hf : _get_body_argument_form body operation ct with
        | error e =>
          rw [hf] at h
          exact absurd h (by simp [Bind.bind, Except.bind])
        | ok r =>
          rw [hf] at h
          rw [ebind_ok] at h
          by_cases hsw : operation.isSwagger2 = true
          · simp only [hform, hsw, Bool.and_self, if_true, hkw, Bool.false_eq_true, if_false] at h
            injection h with h
            subst h
            exact foldFilter_not_contained args san r _ hbn
          · simp only [hform, hsw, Bool.and_false, Bool.false_eq_true, if_false,
              hbn, hkw, Bool.or_self, if_false] at h
            injection h with h
            subst h
            rfl
      · rw [if_neg hform] at h
        simp only [hbn, hkw, Bool.or_self, Bool.false_eq_true, if_false] at h
        injection h with h
        subst h
        rfl
  · intro body operation args kw san ct hform hpos
    have hne : (args.isEmpty && !kw) = false := by
      rcases Bool.or_eq_true_iff.mp hpos with hc | hk
      · rcases args with _ | _
        · simp [List.contains] at hc
        · rfl
      · simp [hk]
    unfold _get_body_argument
    rw [if_neg (by simp [hne]), if_neg (by simpa using hform), if_pos hpos]

/-- A concrete non-form operation for the C4 witness. -/
def c4op : Operation where
  method := "POST"
  parameters := []
  body_name := fun _ => "body"
  body_schema := fun _ => PVal.dict []
  consumes := ["application/json"]
  isSwagger2 := false

theorem body_method_and_name_gate_c4_witness :
    _get_body_argument (PVal.int 3) c4op ["body"] false id "application/json" =
      Except.ok [("body", PVal.int 3)] := by
  have h := body_method_and_name_gate_c4.2.2 (PVal.int 3) c4op ["body"] false id
    "application/json" (by rfl) (by rfl)
  exact h.trans (by rfl)

/-- A concrete schema and items for the C6 witness. -/
def c6items : PVal := PVal.dict [("type", PVal.str "integer")]

def c6defn : PVal :=
  PVal.dict [("schema", PVal.dict [("type", PVal.str "array"), ("items", c6items)])]

theorem array_coercion_order_c6_witness :
    _get_val_from_param (PVal.list [PVal.str "2", PVal.str "3"]) c6defn =
      (mapExcept (fun part => make_type part (PVal.str "integer") (pdGet? c6items "format"))
        [PVal.str "2", PVal.str "3"]).map PVal.list :=
  (array_coercion_order_c6 c6defn c6items (PVal.str "integer")
    [PVal.str "2", PVal.str "3"] (by rfl) (by rfl) (by rfl)).1

/-- A concrete legacy (Swagger 2) form operation. -/
def c1op : Operation where
  method := "POST"
  parameters := []
  body_name := fun _ => "body"
  body_schema := fun _ => PVal.dict []
  consumes := ["application/x-www-form-urlencoded"]
  isSwagger2 := true

/-- Claim C1 counterexample: on a Swagger 2 form operation whose handler
declares exactly the body name `body` (no kwargs) and receives form field
`f`, `_get_body_argument` returns the empty mapping — although `body` is
a declared handler parameter, the computed body value is NOT additionally
included under the body name, contradicting the claim. -/
theorem swagger2_form_no_body_entry_c1_cex :
    List.contains ["body"] (sanitized (c1op.body_name "application/x-www-form-urlencoded")) =
      true ∧
    _get_body_argument (PVal.dict [("f", PVal.str "v")]) c1op ["body"] false sanitized
      "application/x-www-form-urlencoded" = Except.ok [] :=
  ⟨rfl, rfl⟩

/-- Claim C1 (amended): for a Swagger 2 operation with a form content
type (and a handler with at least one declared parameter or kwargs
accepted), the body-argument mapping consists of the unpacked form-body
fields INSTEAD of an entry under the body name: the whole computed form
body under its raw field names when kwargs are accepted, else each field
under its sanitized name and only when that sanitized name is a declared
handler parameter. The computed body value is not additionally included
under the body name. -/
theorem swagger2_form_unpack_c1 (body : PVal) (operation : Operation)
    (args : List String) (kw : Bool) (san : String → String) (ct : String)
    (hsw : operation.isSwagger2 = true)
    (hform : FORM_CONTENT_TYPES.contains ct = true)
    (hne : (args.isEmpty && !kw) = false) :
    _get_body_argument body operation args kw san ct =
      (_get_body_argument_form body operation ct).map (fun result =>
        if kw then result
        else result.foldl (fun acc kv =>
          if args.contains (san kv.1) then dSet acc (san kv.1) kv.2 else acc) []) := by
  unfold _get_body_argument
  rw [if_neg (by simp [hne]), if_pos hform]
  cases hf : _get_body_argument_form body operation ct with
  | error e => simp [Bind.bind, Except.bind, Except.map]
  | ok r =>
    simp only [ebind_ok, hform, hsw, Bool.and_self, if_true, Except.map]
    cases kw <;> rfl

theorem swagger2_form_unpack_c1_witness :
    _get_body_argument (PVal.dict [("f", PVal.str "v")]) c1op [] true sanitized
      "application/x-www-form-urlencoded" = Except.ok [("f", PVal.str "v")] := by
  have h := swagger2_form_unpack_c1 (PVal.dict [("f", PVal.str "v")]) c1op [] true sanitized
    "application/x-www-form-urlencoded" rfl (by rfl) (by rfl)
  exact h.trans (by rfl)

/-- The context-merging fold of `prep_kwargs` leaves keys it never sets
untouched. -/
theorem contextFold_preserve (args : List String) (kw : Bool)
    (ctx : List (String × PVal)) (acc : List (String × PVal)) (k : String)
    (hk : ∀ kv ∈ ctx, kv.1 ≠ k) :
    dGet? (ctx.foldl (fun acc kv =>
      if kw || args.contains kv.1 then dSet acc kv.1 kv.2 else acc) acc) k = dGet? acc k := by
  induction ctx generalizing acc with
  | nil => rfl
  | cons kv rest ih =>
    simp only [List.foldl]
    have hne := hk kv (by simp)
    by_cases hc : (kw || args.contains kv.1) = true
    · rw [if_pos hc, ih _ (fun kv' h' => hk kv' (by simp [h'])), dGet?_dSet_ne _ _ _ _ (fun h' => hne h'.symm)]
    · rw [if_neg hc]
      exact ih _ (fun kv' h' => hk kv' (by simp [h']))

/-- After the context-merging fold of `prep_kwargs`, a context entry
whose key passes the argument filter holds the context's value (the
context has unique keys, as a Python dict). -/
theorem contextFold_lookup (args : List String) (kw : Bool)
    (ctx : List (String × PVal)) (acc : List (String × PVal)) (k : String) (v : PVal)
    (hnodup : (ctx.map Prod.fst).Nodup)
    (hmem : dGet? ctx k = some v)
    (hinc : (kw || args.contains k) = true) :
    dGet? (ctx.foldl (fun acc kv =>
      if kw || args.contains kv.1 then dSet acc kv.1 kv.2 else acc) acc) k = some v := by
  induction ctx generalizing acc with
  | nil => simp [dGet?] at hmem
  | cons kv rest ih =>
    obtain ⟨k0, v0⟩ := kv
    simp only [List.foldl]
    simp only [dGet?] at hmem
    simp only [List.map, List.nodup_cons] at hnodup
    by_cases hk0 : k0 = k
    · subst hk0
      rw [if_pos rfl] at hmem
      injection hmem with hmem
      subst hmem
      rw [if_pos hinc]
      rw [contextFold_preserve args kw rest _ k0 ?hrest]
      · exact dGet?_dSet_self _ _ _
      case hrest =>
        intro kv' h' he
        exact hnodup.1 (he ▸ List.mem_map_of_mem Prod.fst h')
    · rw [if_neg hk0] at hmem
      by_cases hc : (kw || args.contains k0) = true
      · rw [if_pos hc]
        exact ih _ hnodup.2 hmem
      · rw [if_neg hc]
        exact ih _ hnodup.2 hmem

/-- A concrete `GET` operation and request for the C10 counterexample:
the context holds an entry under the reserved name `context_`, and the
handler declares `context_`. -/
def c10op : Operation where
  method := "GET"
  parameters := []
  body_name := fun _ => "body"
  body_schema := fun _ => PVal.dict []
  consumes := []
  isSwagger2 := false

def c10req : Request where
  path_params := []
  query_params := []
  files := []
  context := [("context_", PVal.int 5)]
  content_type := "application/json"

/-- Claim C10 counterexample: the context entry `context_ = 5` targets a
declared handler parameter, yet the handler receives the full context
mapping under `context_`, not the entry's value `5` — the final
`CONTEXT_NAME` assignment of `prep_kwargs` overwrites it. -/
theorem context_value_c10_cex :
    prep_kwargs c10req c10op PVal.none ["context_"] false sanitized =
      Except.ok [("context_", PVal.dict [("context_", PVal.int 5)])] ∧
    PVal.dict [("context_", PVal.int 5)] ≠ PVal.int 5 := by
  constructor
  · simp [prep_kwargs, get_arguments, _get_path_arguments, paramDict, paramDictGo, pathArgsGo,
      _get_query_arguments, _get_query_defaults, queryDefaultFor, deep_merge, deepMergeList,
      _query_args_helper, queryArgsGo, strUpper, ebind_ok, dSet, dGet?, CONTEXT_NAME,
      c10req, c10op]
  · exact fun h => PVal.noConfusion h

/-- Claim C10 (amended): context entries are written into the
keyword-argument mapping after the extracted path/query/body arguments,
so a context entry with an included key overwrites any extracted value,
and the handler receives the context's value — except for the reserved
key `context_` when `context_` is a declared handler parameter, in which
case the handler receives the full context mapping under that name. -/
theorem context_overwrites_c10 (request : Request) (operation : Operation)
    (request_body : PVal) (args : List String) (kw : Bool) (san : String → String)
    (kwres : List (String × PVal)) (k : String) (v : PVal)
    (hok : prep_kwargs request operation request_body args kw san = Except.ok kwres)
    (hnodup : (request.context.map Prod.fst).Nodup)
    (hmem : dGet? request.context k = some v)
    (hinc : (kw || args.contains k) = true) :
    (¬(k = CONTEXT_NAME ∧ args.contains CONTEXT_NAME = true) →
      dGet? kwres k = some v) ∧
    (args.contains CONTEXT_NAME = true →
      dGet? kwres CONTEXT_NAME = some (PVal.dict request.context)) := by
  unfold prep_kwargs at hok
  cases hga : get_arguments operation request.path_params request.query_params request_body
      request.files args kw san request.content_type with
  | error e =>
    rw [hga] at hok
    exact absurd hok (by simp [Bind.bind, Except.bind])
  | ok g =>
    rw [hga, ebind_ok] at hok
    injection hok with hok
    subst hok
    constructor
    · intro hnot
      by_cases hcn : args.contains CONTEXT_NAME = true
      · have hkne : k ≠ CONTEXT_NAME := fun he => hnot ⟨he, hcn⟩
        rw [if_pos hcn, dGet?_dSet_ne _ _ _ _ hkne]
        exact contextFold_lookup args kw request.context _ k v hnodup hmem hinc
      · rw [if_neg hcn]
        exact contextFold_lookup args kw request.context _ k v hnodup hmem hinc
    · intro hcn
      rw [if_pos hcn]
      exact dGet?_dSet_self _ _ _

theorem context_overwrites_c10_witness :
    dGet? [("context_", PVal.dict [("context_", PVal.int 5)])] CONTEXT_NAME =
      some (PVal.dict [("context_", PVal.int 5)]) := by
  have h := context_overwrites_c10 c10req c10op PVal.none ["context_"] false sanitized
    [("context_", PVal.dict [("context_", PVal.int 5)])] "context_" (PVal.int 5)
    (by simp [prep_kwargs, get_arguments, _get_path_arguments, paramDict, paramDictGo,
       pathArgsGo, _get_query_arguments, _get_query_defaults, queryDefaultFor, deep_merge,
       deepMergeList, _query_args_helper, queryArgsGo, strUpper, ebind_ok, dSet, dGet?,
       CONTEXT_NAME, c10req, c10op])
    (by simp [c10req]) (by rfl) (by rfl)
  exact h.2 (by rfl)

/-! ## Request validation (`middleware/request_validation.py`) -/

/-- The structured problem responses raised by the validation stage:
`unsupportedMediaType` models `UnsupportedMediaTypeProblem` (HTTP 415),
`validation` models `ValidationProblem` (HTTP 400). -/
inductive Problem where
  | unsupportedMediaType (detail : String) : Problem
  | validation (detail : String) : Problem
deriving Repr, DecidableEq

/-- Modelled from the spec: `connexion.utils.extract_content_type` (not
under `src/`). Spec 4.6: read the content-type header into a mime type
and an optional charset encoding; both are absent when the header is
absent, the encoding is absent when the header carries no `charset`
parameter. A header value `mime; charset=enc` splits at the first
semicolon; pieces are whitespace-trimmed. -/
def strLower (s : String) : String := String.mk (s.data.map Char.toLower)

def whitespaceTrim (s : String) : String :=
  String.mk (((s.data.dropWhile Char.isWhitespace).reverse.dropWhile
    Char.isWhitespace).reverse)

/-- Split a character list at every occurrence of the separator. -/
def splitOnChar (sep : Char) : List Char → List (List Char)
  | [] => [[]]
  | c :: rest =>
    let r := splitOnChar sep rest
    if c = sep then [] :: r
    else (c :: r.headD []) :: r.tail

/-- The remainder of the second list after the first list as its prelude,
when it is one. -/
def chompLead : List Char → List Char → Option (List Char)
  | [], l => some l
  | p :: ps, c :: cs => if c = p then chompLead ps cs else Option.none
  | _ :: _, [] => Option.none

def extract_content_type_header (headers : List (String × String)) :
    Option String × Option String :=
  match headers.find? (fun h => strLower h.1 = "content-type") with
  | Option.none => (Option.none, Option.none)
  | some h =>
    let parts := (splitOnChar ';' h.2.data).map (fun l => whitespaceTrim (String.mk l))
    let mime := parts.headD ""
    let charset := (parts.drop 1).findSome? (fun p =>
      (chompLead "charset=".data p.data).map String.mk)
    (some mime, charset)

/-- The type part of a media type: the piece before the slash. -/
def mediaTypePart (s : String) : String :=
  String.mk (s.data.takeWhile (fun c => c ≠ '/'))

/-- Modelled from the spec: the media-range matching of
`connexion.datastructures.MediaTypeDict` (not under `src/`). Spec 4.6: a
declared consumed type matches the resolved mime type respecting
media-type wildcards/ranges — it matches exactly, or is a `type/*` range
covering the mime type's type part, or is the full range. -/
def mediaRangeMatches (range mime : String) : Bool :=
  range = mime || range = mediaTypePart mime ++ "/*" || range = "*/*"

/-- `RequestValidationOperation.extract_content_type`: the mime type and
encoding from the headers; an absent mime type defaults to the
operation's first declared consumed type, or `application/octet-stream`
when the operation declares none (the `IndexError` branch); an absent
encoding defaults to `utf-8`. -/
def extract_content_type (operation : Operation) (headers : List (String × String)) :
    String × String :=
  let me := extract_content_type_header headers
  let mime_type :=
    match me.1 with
    | some m => m
    | Option.none =>
      match operation.consumes with
      | c :: _ => c
      | [] => "application/octet-stream"
  let encoding := me.2.getD "utf-8"
  (mime_type, encoding)

/-- `RequestValidationOperation.validate_mime_type`: the mime type is
checked, lower-cased, against the media-type dictionary built from the
lower-cased declared consumed types; a miss raises
`UnsupportedMediaTypeProblem`. -/
def validate_mime_type (operation : Operation) (mime_type : String) : Option Problem :=
  if (operation.consumes.map strLower).any
      (fun c => mediaRangeMatches c (strLower mime_type)) then
    Option.none
  else
    some (Problem.unsupportedMediaType
      ("Invalid Content-type (" ++ mime_type ++ "), expected " ++
        String.intercalate ", " operation.consumes))

/-- `RequestValidationOperation.__call__`: validate parameters and
headers through the configured parameter validator, resolve and validate
the content type, then — when the operation declares a body schema for
the resolved mime type — run the registered body validator for that mime
type if any (skipping body validation otherwise), and finally pass the
request on to the next app. The external validator classes
(`VALIDATOR_MAP`, not under `src/`) enter as the outcome
`parameter_validation` of `parameter_validator.validate(scope)` and the
per-mime-type registry `body_validator_for`; `Except.ok ()` means the
wrapped handler stack was invoked. -/
def requestValidationCall (operation : Operation)
    (parameter_validation : Except Problem Unit)
    (body_validator_for : String → Option (Except Problem Unit))
    (headers : List (String × String)) : Except Problem Unit := do
  parameter_validation
  let me := extract_content_type operation headers
  match validate_mime_type operation me.1 with
  | some p => Except.error p
  | Option.none =>
    let schema := operation.body_schema (some me.1)
    if truthy schema then
      match body_validator_for me.1 with
      | Option.none => Except.ok ()
      | some r => do
        r
        Except.ok ()
    else Except.ok ()

/-- Claim C8: when the request carries no content-type header the
resolved mime type is the operation's first declared consumed content
type, or `application/octet-stream` when the operation declares none,
and whenever the headers specify no encoding the resolved text encoding
is `utf-8`. -/
theorem content_type_defaults_c8 (operation : Operation) (headers : List (String × String)) :
    ((headers.find? (fun h => strLower h.1 = "content-type")) = Option.none →
      (extract_content_type operation headers).1 =
        match operation.consumes with
        | c :: _ => c
        | [] => "application/octet-stream") ∧
    ((extract_content_type_header headers).2 = Option.none →
      (extract_content_type operation headers).2 = "utf-8") := by
  constructor
  · intro h
    simp [extract_content_type, extract_content_type_header, h]
  · intro h
    simp [extract_content_type, h]

def c8op : Operation where
  method := "POST"
  parameters := []
  body_name := fun _ => "body"
  body_schema := fun _ => PVal.dict []
  consumes := ["application/json"]
  isSwagger2 := false

theorem content_type_defaults_c8_witness :
    (extract_content_type c8op [("accept", "text/html")]).1 = "application/json" ∧
    (extract_content_type c8op [("accept", "text/html")]).2 = "utf-8" :=
  ⟨(content_type_defaults_c8 c8op [("accept", "text/html")]).1 (by rfl),
   (content_type_defaults_c8 c8op [("accept", "text/html")]).2 (by rfl)⟩

/-- Claim C7: `validate_mime_type` raises `UnsupportedMediaTypeProblem`
(HTTP 415) exactly when the mime type matches — case-insensitively and
respecting media-type ranges — none of the operation's declared consumed
content types; any problem it raises is an `UnsupportedMediaTypeProblem`;
and on such a failure the validation stage short-circuits with that
problem, so the handler stack is never invoked. -/
theorem mime_type_validation_c7 (operation : Operation) (mime_type : String)
    (parameter_validation : Except Problem Unit)
    (body_validator_for : String → Option (Except Problem Unit))
    (headers : List (String × String)) :
    ((validate_mime_type operation mime_type).isSome ↔
      ¬ ((operation.consumes.map strLower).any
          (fun c => mediaRangeMatches c (strLower mime_type))) = true) ∧
    (∀ p, validate_mime_type operation mime_type = some p →
      ∃ d, p = Problem.unsupportedMediaType d) ∧
    (∀ p, parameter_validation = Except.ok () →
      validate_mime_type operation (extract_content_type operation headers).1 = some p →
      requestValidationCall operation parameter_validation body_validator_for headers =
        Except.error p) := by
  refine ⟨?_, ?_, ?_⟩
  · unfold validate_mime_type
    by_cases h : ((operation.consumes.map strLower).any
        (fun c => mediaRangeMatches c (strLower mime_type))) = true
    · simp [h]
    · simp [h]
  · intro p hp
    unfold validate_mime_type at hp
    by_cases h : ((operation.consumes.map strLower).any
        (fun c => mediaRangeMatches c (strLower mime_type))) = true
    · rw [if_pos h] at hp
      exact absurd hp (by simp)
    · rw [if_neg h] at hp
      injection hp with hp
      exact ⟨_, hp.symm⟩
  · intro p hpv hmt
    unfold requestValidationCall
    simp only [hpv, Bind.bind, Except.bind]
    rw [hmt]

def c7op : Operation where
  method := "POST"
  parameters := []
  body_name := fun _ => "body"
  body_schema := fun _ => PVal.dict []
  consumes := ["application/json"]
  isSwagger2 := false

theorem mime_type_validation_c7_witness :
    requestValidationCall c7op (Except.ok ()) (fun _ => Option.none)
      [("content-type", "application/xml")] =
      Except.error (Problem.unsupportedMediaType
        "Invalid Content-type (application/xml), expected application/json") :=
  (mime_type_validation_c7 c7op "application/xml" (Except.ok ()) (fun _ => Option.none)
    [("content-type", "application/xml")]).2.2 _ rfl (by rfl)

/-! ## Routing (`middleware/routing.py`) -/

/-- `PATH_PARAMETER_CONVERTERS` from `routing.py`: the schema types that
carry a route converter. -/
def PATH_PARAMETER_CONVERTERS : List (String × String) :=
  [("integer", "int"), ("number", "float"), ("path", "path")]

/-- Python `name.replace("-", "_")`. -/
def hyphenToUnderscore (s : String) : String :=
  String.mk (s.data.map (fun c => if c = '-' then '_' else c))

/-- `convert_path_parameter` from `routing.py`: rebuild the placeholder
with hyphens replaced by underscores and, when the parameter's declared
type maps to a converter, a `:converter` suffix. -/
def convert_path_parameter (types : List (String × String)) (name : String) : String :=
  let swagger_type := types.lookup name
  let converter := swagger_type.bind (fun t => PATH_PARAMETER_CONVERTERS.lookup t)
  "\x7b" ++ hyphenToUnderscore name ++ (if converter.isSome then ":" else "") ++
    converter.getD "" ++ "\x7d"

/-- The substitution loop of `PATH_PARAMETER.sub` (`re.compile(r"\{([^}]*)\}")`)
over the characters of the path: at a `{` with a later `}`, the characters
up to the first `}` are the parameter name and the whole placeholder is
replaced through `convert_path_parameter`; everything else passes through
unchanged. -/
def starScan (types : List (String × String)) : List Char → List Char
  | [] => []
  | c :: rest =>
    if h : c = '{' ∧ (rest.dropWhile (fun x => x ≠ '}')) ≠ [] then
      let name := rest.takeWhile (fun x => x ≠ '}')
      let rest' := (rest.dropWhile (fun x => x ≠ '}')).tail
      (convert_path_parameter types (String.mk name)).data ++ starScan types rest'
    else c :: starScan types rest
termination_by l => l.length
decreasing_by
  · have h1 : (rest.dropWhile (fun x => x ≠ '}')).length ≤ rest.length :=
      (List.dropWhile_sublist _).length_le
    simp only [List.length_cons, List.length_tail]
    omega
  · simp only [List.length_cons]
    omega

/-- `starlettify_path` from `routing.py`: convert a swagger path template
to the router's template syntax. -/
def starlettify_path (swagger_path : String) (types : List (String × String)) : String :=
  String.mk (starScan types swagger_path.data)

/-- Strip an optional leading sign, as in the converter regexes. -/
def signSplitChars : List Char → List Char
  | '+' :: ds => ds
  | '-' :: ds => ds
  | ds => ds

/-- Acceptance of `IntegerConverter.regex` from `routing.py`
(`[+-]?[0-9]+`): an optional sign then at least one digit. -/
def integerConverterAccepts (s : String) : Bool :=
  !(signSplitChars s.data).isEmpty && (signSplitChars s.data).all Char.isDigit

/-- Acceptance of `FloatConverter.regex` from `routing.py`
(`[+-]?[0-9]*(\.[0-9]*)?`): an optional sign, any digits, then an
optional dot with any digits. -/
def floatConverterAccepts (s : String) : Bool :=
  match (signSplitChars s.data).dropWhile Char.isDigit with
  | [] => true
  | '.' :: frac => frac.all Char.isDigit
  | _ => false

theorem takeWhile_append_stop (p : Char → Bool) (l1 : List Char) (c : Char) (l2 : List Char)
    (h1 : ∀ x ∈ l1, p x = true) (hc : p c = false) :
    (l1 ++ c :: l2).takeWhile p = l1 := by
  induction l1 with
  | nil => simp [List.takeWhile, hc]
  | cons a rest ih =>
    have ha := h1 a (by simp)
    simp only [List.cons_append, List.takeWhile, ha]
    simp [ih (fun x hx => h1 x (by simp [hx]))]

theorem dropWhile_append_stop (p : Char → Bool) (l1 : List Char) (c : Char) (l2 : List Char)
    (h1 : ∀ x ∈ l1, p x = true) (hc : p c = false) :
    (l1 ++ c :: l2).dropWhile p = c :: l2 := by
  induction l1 with
  | nil => simp [List.dropWhile, hc]
  | cons a rest ih =>
    have ha := h1 a (by simp)
    simp only [List.cons_append, List.dropWhile, ha]
    simp [ih (fun x hx => h1 x (by simp [hx]))]

/-- Non-placeholder characters pass through the substitution unchanged. -/
theorem starScan_lit (types : List (String × String)) (l m : List Char)
    (h : '{' ∉ l) : starScan types (l ++ m) = l ++ starScan types m := by
  induction l with
  | nil => rfl
  | cons c rest ih =>
    simp only [List.mem_cons, not_or] at h
    have hc : ¬ (c = '{') := fun hh => h.1 hh.symm
    rw [List.cons_append, starScan]
    simp only [hc, false_and, dite_false]
    rw [ih h.2]
    rfl

/-- A well-formed placeholder is rewritten through
`convert_path_parameter` and scanning continues after it. -/
theorem starScan_param (types : List (String × String)) (n m : List Char)
    (h : '}' ∉ n) :
    starScan types ('{' :: (n ++ '}' :: m)) =
      (convert_path_parameter types (String.mk n)).data ++ starScan types m := by
  have hall : ∀ x ∈ n, (decide (x ≠ '}')) = true := by
    intro x hx
    simp only [decide_eq_true_eq]
    intro he
    exact h (he ▸ hx)
  have hdrop : (n ++ '}' :: m).dropWhile (fun x => decide (x ≠ '}')) = '}' :: m :=
    dropWhile_append_stop _ n '}' m hall (by simp)
  have htake : (n ++ '}' :: m).takeWhile (fun x => decide (x ≠ '}')) = n :=
    takeWhile_append_stop _ n '}' m hall (by simp)
  rw [starScan]
  simp only [hdrop, htake]
  simp

/-- Path templates: literal text interleaved with `{name}` placeholders. -/
inductive PathSeg where
  | lit (s : String) : PathSeg
  | param (name : String) : PathSeg

/-- Rendering of a template into the specification's path string. -/
def renderPath : List PathSeg → List Char
  | [] => []
  | PathSeg.lit s :: rest => s.data ++ renderPath rest
  | PathSeg.param n :: rest => '{' :: (n.data ++ '}' :: renderPath rest)

/-- Well-formedness of a template piece: literals and names are
brace-free. -/
def segWF : PathSeg → Prop
  | PathSeg.lit s => '{' ∉ s.data ∧ '}' ∉ s.data
  | PathSeg.param n => '{' ∉ n.data ∧ '}' ∉ n.data

/-- The intended conversion: literals unchanged, placeholders through
`convert_path_parameter`. -/
def convertPath (types : List (String × String)) : List PathSeg → List Char
  | [] => []
  | PathSeg.lit s :: rest => s.data ++ convertPath types rest
  | PathSeg.param n :: rest => (convert_path_parameter types n).data ++ convertPath types rest

theorem starScan_render (types : List (String × String)) (tpl : List PathSeg)
    (hwf : ∀ seg ∈ tpl, segWF seg) :
    starScan types (renderPath tpl) = convertPath types tpl := by
  induction tpl with
  | nil => simp [renderPath, convertPath, starScan]
  | cons seg rest ih =>
    have hseg := hwf seg (by simp)
    have hrest := ih (fun s hs => hwf s (by simp [hs]))
    cases seg with
    | lit s =>
      simp only [renderPath, convertPath]
      rw [starScan_lit types s.data _ hseg.1, hrest]
    | param n =>
      simp only [renderPath, convertPath]
      rw [starScan_param types n.data _ hseg.2, hrest]

theorem signSplitChars_not_sign (c : Char) (t : List Char)
    (hp : c ≠ '+') (hm : c ≠ '-') : signSplitChars (c :: t) = c :: t := by
  unfold signSplitChars
  simp [hp, hm]

theorem signSplitChars_cases (l : List Char) :
    (signSplitChars l = l ∧ ∀ c t, l = c :: t → c ≠ '+' ∧ c ≠ '-') ∨
    (∃ t, l = '+' :: t ∧ signSplitChars l = t) ∨
    (∃ t, l = '-' :: t ∧ signSplitChars l = t) := by
  cases l with
  | nil => exact Or.inl ⟨rfl, fun c t h => nomatch h⟩
  | cons c t =>
    by_cases hp : c = '+'
    · subst hp
      exact Or.inr (Or.inl ⟨t, rfl, rfl⟩)
    · by_cases hm : c = '-'
      · subst hm
        exact Or.inr (Or.inr ⟨t, rfl, rfl⟩)
      · refine Or.inl ⟨signSplitChars_not_sign c t hp hm, fun c' t' h => ?_⟩
        injection h with h1 h2
        subst h1
        exact ⟨hp, hm⟩

theorem digit_not_sign (c : Char) (h : c.isDigit = true) : c ≠ '+' ∧ c ≠ '-' := by
  constructor
  · intro he
    subst he
    exact absurd h (by decide)
  · intro he
    subst he
    exact absurd h (by decide)

theorem dropWhile_append_all (p : Char → Bool) (l1 l2 : List Char)
    (h : ∀ c ∈ l1, p c = true) : (l1 ++ l2).dropWhile p = l2.dropWhile p := by
  induction l1 with
  | nil => rfl
  | cons a rest ih =>
    simp [List.dropWhile, h a (by simp), ih (fun c hc => h c (by simp [hc]))]

theorem integerConverterAccepts_iff (s : String) :
    integerConverterAccepts s = true ↔
      ∃ (sgn : String) (ds : List Char), (sgn = "" ∨ sgn = "+" ∨ sgn = "-") ∧ ds ≠ [] ∧
        ds.all Char.isDigit = true ∧ s.data = sgn.data ++ ds := by
  constructor
  · intro h
    unfold integerConverterAccepts at h
    simp only [Bool.and_eq_true, Bool.not_eq_true'] at h
    obtain ⟨hne, hall⟩ := h
    rcases signSplitChars_cases s.data with ⟨he, _⟩ | ⟨t, het, he⟩ | ⟨t, het, he⟩
    · exact ⟨"", s.data, Or.inl rfl, by rw [he] at hne; simpa using hne,
        by rw [he] at hall; exact hall, by simp⟩
    · exact ⟨"+", t, Or.inr (Or.inl rfl), by rw [he] at hne; simpa using hne,
        he ▸ hall, by rw [het]; rfl⟩
    · exact ⟨"-", t, Or.inr (Or.inr rfl), by rw [he] at hne; simpa using hne,
        he ▸ hall, by rw [het]; rfl⟩
  · rintro ⟨sgn, ds, hs, hne, hall, heq⟩
    have hsplit : signSplitChars s.data = ds := by
      rcases hs with h0 | h0 | h0 <;> subst h0
      · cases hd : ds with
        | nil => exact absurd hd hne
        | cons d dt =>
          rw [heq, hd]
          simp only [String.data]
          have hdd : d.isDigit = true := by
            rw [hd] at hall
            simp only [List.all_cons, Bool.and_eq_true] at hall
            exact hall.1
          obtain ⟨hp, hm⟩ := digit_not_sign d hdd
          exact signSplitChars_not_sign d dt hp hm
      · rw [heq]
        rfl
      · rw [heq]
        rfl
    unfold integerConverterAccepts
    rw [hsplit]
    simp [hne, hall]


theorem floatConverterAccepts_iff (s : String) :
    floatConverterAccepts s = true ↔
      ∃ (sgn : String) (ds fr : List Char), (sgn = "" ∨ sgn = "+" ∨ sgn = "-") ∧
        ds.all Char.isDigit = true ∧
        (fr = [] ∨ ∃ fs, fr = '.' :: fs ∧ fs.all Char.isDigit = true) ∧
        s.data = sgn.data ++ (ds ++ fr) := by
  have hsgn : ∃ (sgn : String), (sgn = "" ∨ sgn = "+" ∨ sgn = "-") ∧
      s.data = sgn.data ++ signSplitChars s.data := by
    rcases signSplitChars_cases s.data with ⟨he, _⟩ | ⟨t, het, he⟩ | ⟨t, het, he⟩
    · exact ⟨"", Or.inl rfl, by rw [he]; simp⟩
    · exact ⟨"+", Or.inr (Or.inl rfl), by rw [he]; exact het⟩
    · exact ⟨"-", Or.inr (Or.inr rfl), by rw [he]; exact het⟩
  constructor
  · intro h
    unfold floatConverterAccepts at h
    obtain ⟨sgn, hsv, hseq⟩ := hsgn
    cases hdw : (signSplitChars s.data).dropWhile Char.isDigit with
    | nil =>
      refine ⟨sgn, signSplitChars s.data, [], hsv, ?_, Or.inl rfl, by
        rw [List.append_nil]; exact hseq⟩
      rw [List.all_eq_true]
      exact List.dropWhile_eq_nil_iff.mp hdw
    | cons c frac =>
      rw [hdw] at h
      by_cases hc : c = '.'
      · subst hc
        simp only at h
        refine ⟨sgn, (signSplitChars s.data).takeWhile Char.isDigit, '.' :: frac, hsv, ?_,
          Or.inr ⟨frac, rfl, h⟩, ?_⟩
        · rw [List.all_eq_true]
          exact fun x hx => List.mem_takeWhile_imp hx
        · rw [← hdw, List.takeWhile_append_dropWhile]
          exact hseq
      · simp [hc] at h
  · rintro ⟨sgn, ds, fr, hsv, hall, hfr, heq⟩
    have hsplit : signSplitChars s.data = ds ++ fr := by
      rcases hsv with h0 | h0 | h0 <;> subst h0
      · simp only [String.data] at heq
        rw [heq]
        cases hds : ds with
        | nil =>
          rcases hfr with h1 | ⟨fs, h1, _⟩
          · subst h1
            rfl
          · subst h1
            simp only [List.nil_append]
            exact signSplitChars_not_sign '.' fs (by decide) (by decide)
        | cons d dt =>
          have hdd : d.isDigit = true := by
            rw [hds, List.all_cons, Bool.and_eq_true] at hall
            exact hall.1
          obtain ⟨hp, hm⟩ := digit_not_sign d hdd
          rw [List.cons_append]
          exact signSplitChars_not_sign d _ hp hm
      · rw [heq]
        rfl
      · rw [heq]
        rfl
    unfold floatConverterAccepts
    rw [hsplit, dropWhile_append_all Char.isDigit ds fr (List.all_eq_true.mp hall)]
    rcases hfr with h1 | ⟨fs, h1, hfs⟩
    · subst h1
      rfl
    · subst h1
      have : ('.' :: fs).dropWhile Char.isDigit = '.' :: fs := by
        simp [List.dropWhile]
      rw [this]
      simpa using hfs

/-- Claim C9: converting a specification path template to the router's
syntax rewrites each well-formed `\x7bname\x7d` placeholder through
`convert_path_parameter` and leaves literal text unchanged; the rewrite
replaces hyphens in the name by underscores and appends `:int` exactly
for declared type `integer` and `:float` exactly for declared type
`number`, while a type with no registered converter — in particular an
absent or unrecognized type — gets a plain placeholder; and the numeric
converters accept exactly the permissive languages "optional sign, one
or more digits" (`integer`) and "optional sign, any digits, optional dot
with any digits" (`number`). -/
theorem starlettify_path_c9 :
    (∀ (types : List (String × String)) (tpl : List PathSeg),
      (∀ seg ∈ tpl, segWF seg) →
      starlettify_path (String.mk (renderPath tpl)) types =
        String.mk (convertPath types tpl)) ∧
    (∀ (types : List (String × String)) (name : String),
      (types.lookup name = some "integer" →
        convert_path_parameter types name =
          "\x7b" ++ hyphenToUnderscore name ++ ":" ++ "int" ++ "\x7d") ∧
      (types.lookup name = some "number" →
        convert_path_parameter types name =
          "\x7b" ++ hyphenToUnderscore name ++ ":" ++ "float" ++ "\x7d") ∧
      ((types.lookup name).bind (fun t => PATH_PARAMETER_CONVERTERS.lookup t) = Option.none →
        convert_path_parameter types name = "\x7b" ++ hyphenToUnderscore name ++ "\x7d")) ∧
    (∀ s : String, integerConverterAccepts s = true ↔
      ∃ (sgn : String) (ds : List Char), (sgn = "" ∨ sgn = "+" ∨ sgn = "-") ∧ ds ≠ [] ∧
        ds.all Char.isDigit = true ∧ s.data = sgn.data ++ ds) ∧
    (∀ s : String, floatConverterAccepts s = true ↔
      ∃ (sgn : String) (ds fr : List Char), (sgn = "" ∨ sgn = "+" ∨ sgn = "-") ∧
        ds.all Char.isDigit = true ∧
        (fr = [] ∨ ∃ fs, fr = '.' :: fs ∧ fs.all Char.isDigit = true) ∧
        s.data = sgn.data ++ (ds ++ fr)) := by
  refine ⟨?_, ?_, integerConverterAccepts_iff, floatConverterAccepts_iff⟩
  · intro types tpl hwf
    unfold starlettify_path
    exact congrArg String.mk (starScan_render types tpl hwf)
  · intro types name
    refine ⟨?_, ?_, ?_⟩
    · intro h
      unfold convert_path_parameter
      rw [h]
      rfl
    · intro h
      unfold convert_path_parameter
      rw [h]
      rfl
    · intro h
      simp [convert_path_parameter, h]

theorem starlettify_path_c9_witness :
    starlettify_path "/a/\x7buser-id\x7d" [("user-id", "integer")] =
      "/a/\x7buser_id:int\x7d" := by
  have h := starlettify_path_c9.1 [("user-id", "integer")]
    [PathSeg.lit "/a/", PathSeg.param "user-id"] (by
      intro seg hs
      simp only [List.mem_cons, List.mem_singleton] at hs
      rcases hs with h1 | h1 | h1
      · subst h1
        exact ⟨by decide, by decide⟩
      · subst h1
        exact ⟨by decide, by decide⟩
      · simp at h1)
  have e1 : String.mk (renderPath [PathSeg.lit "/a/", PathSeg.param "user-id"]) =
      "/a/\x7buser-id\x7d" := rfl
  rw [e1] at h
  exact h.trans (by rfl)

/-! ## A mutable-heap model of Python values for the aliasing claim

Default resolution in `parameter.py` manipulates Python dicts by
reference (`copy` is shallow, parameter-level defaults are assigned
without any copy), so the claim that mutating a resolved mapping never
mutates the specification is about object identity. This section gives a
small heap semantics — addresses, dict objects, shallow `copy` and
recursive `deepcopy` — and re-embeds `_get_query_defaults`,
`_get_default_obj` and `_build_default_obj_recursive` over it.
Primitives are immutable; dicts are the only mutable objects (the
functions under study only traverse dicts). Recursion over heap
structure carries explicit fuel; exhausted fuel fails, it never
fabricates a result. -/

namespace Hp

abbrev Addr := Nat

/-- A Python value in the heap model: an immutable primitive or a
reference to a heap object. -/
inductive HVal where
  | none : HVal
  | bool : Bool → HVal
  | int : Int → HVal
  | str : String → HVal
  | ref : Addr → HVal
deriving Repr, DecidableEq

/-- A heap object: a dict with insertion-ordered entries. -/
inductive HObj where
  | dict : List (String × HVal) → HObj
deriving Repr, DecidableEq

/-- First-match association lookup with address keys. -/
def aGet : List (Addr × HObj) → Addr → Option HObj
  | [], _ => Option.none
  | (a', o) :: rest, a => if a' = a then some o else aGet rest a

/-- First-match association lookup with string keys. -/
def eGet : List (String × HVal) → String → Option HVal
  | [], _ => Option.none
  | (k', v) :: rest, k => if k' = k then some v else eGet rest k

/-- In-place dict assignment on an entry list. -/
def eSet : List (String × HVal) → String → HVal → List (String × HVal)
  | [], k, v => [(k, v)]
  | (k', v') :: rest, k, v =>
    if k' = k then (k', v) :: rest else (k', v') :: eSet rest k v

/-- The heap: allocated objects and the next fresh address. -/
structure HeapSt where
  objs : List (Addr × HObj)
  next : Addr
deriving Repr

def HeapSt.find (h : HeapSt) (a : Addr) : Option HObj := aGet h.objs a

/-- The state-and-exception monad of the model: Python state is always
threaded, also past a raised exception. -/
def M (α : Type) : Type := HeapSt → Except Err α × HeapSt

instance : Monad M where
  pure a := fun h => (Except.ok a, h)
  bind m f := fun h =>
    match m h with
    | (Except.ok a, h') => f a h'
    | (Except.error e, h') => (Except.error e, h')

def mthrow {α : Type} (e : Err) : M α := fun h => (Except.error e, h)

/-- Python `try: m except KeyError: fallback` — other errors propagate,
state changes made before the exception persist. -/
def tryKeyError {α : Type} (m : M α) (fallback : M α) : M α := fun h =>
  match m h with
  | (Except.ok a, h') => (Except.ok a, h')
  | (Except.error Err.keyError, h') => fallback h'
  | (Except.error e, h') => (Except.error e, h')

/-- Read the object at an address (a dangling address is a model
error). -/
def readObj (a : Addr) : M HObj := fun h =>
  match h.find a with
  | some o => (Except.ok o, h)
  | Option.none => (Except.error Err.typeError, h)

/-- Allocate a fresh object. -/
def alloc (o : HObj) : M Addr := fun h =>
  (Except.ok h.next, ⟨(h.next, o) :: h.objs, h.next + 1⟩)

/-- Overwrite the object at an address (shadowing the old binding). -/
def writeObj (a : Addr) (o : HObj) : M Unit := fun h =>
  (Except.ok (), ⟨(a, o) :: h.objs, h.next⟩)

/-- The entries of the dict at an address. -/
def dictEntries (a : Addr) : M (List (String × HVal)) := do
  match (← readObj a) with
  | HObj.dict es => pure es

/-- Python `d[k]`: `KeyError` when absent. -/
def dictGet (a : Addr) (k : String) : M HVal := do
  let es ← dictEntries a
  match eGet es k with
  | some v => pure v
  | Option.none => mthrow Err.keyError

/-- Python `d.get(k)`. -/
def dictGetOpt (a : Addr) (k : String) : M (Option HVal) := do
  let es ← dictEntries a
  pure (eGet es k)

/-- Python `k in d`. -/
def dictHas (a : Addr) (k : String) : M Bool := do
  let es ← dictEntries a
  pure (eGet es k).isSome

/-- Python `d[k] = v`. -/
def dictSet (a : Addr) (k : String) (v : HVal) : M Unit := do
  let es ← dictEntries a
  writeObj a (HObj.dict (eSet es k v))

/-- Python `copy.copy`: a dict copies shallowly — a fresh object sharing
the entry values — and a primitive is itself. -/
def pycopy (v : HVal) : M HVal :=
  match v with
  | HVal.ref a => do
    let es ← dictEntries a
    let a' ← alloc (HObj.dict es)
    pure (HVal.ref a')
  | v => pure v

mutual

/-- Python `copy.deepcopy` (fuel-bounded): a dict clones recursively
into entirely fresh objects. -/
def deepcopy : Nat → HVal → M HVal
  | 0, _ => mthrow Err.typeError
  | n + 1, HVal.ref a => do
    let es ← dictEntries a
    let es' ← deepcopyEntries n es
    let a' ← alloc (HObj.dict es')
    pure (HVal.ref a')
  | _ + 1, v => pure v

def deepcopyEntries : Nat → List (String × HVal) → M (List (String × HVal))
  | _, [] => pure []
  | n, (k, v) :: rest => do
    let v' ← deepcopy n v
    let rest' ← deepcopyEntries n rest
    pure ((k, v') :: rest')

end

/-- The body of one `for name, property_ in properties.items()`
iteration of `_build_default_obj_recursive`, parametrised over the
recursive call `recur`: a property-level `default` for a fresh name is
stored as a SHALLOW `copy.copy`; an `object`-typed property with
`properties` recurses into `default_object.setdefault(name, {})`. -/
def buildStepG (recur : Addr → Addr → M Unit) (name : String) (pA accA : Addr) : M Unit := do
  let hasDefault ← dictHas pA "default"
  let hasName ← dictHas accA name
  if hasDefault && !hasName then do
    let dv ← dictGet pA "default"
    let cv ← pycopy dv
    dictSet accA name cv
  else do
    let ty ← dictGetOpt pA "type"
    let hasProps ← dictHas pA "properties"
    if (match ty with | some (HVal.str s) => s = "object" | _ => false) && hasProps then do
      let hasN ← dictHas accA name
      if !hasN then do
        let na ← alloc (HObj.dict [])
        dictSet accA name (HVal.ref na)
      let cur ← dictGet accA name
      match cur with
      | HVal.ref curA => do
        let propsV ← dictGet pA "properties"
        match propsV with
        | HVal.ref ppA => do
          recur ppA curA
          dictSet accA name (HVal.ref curA)
        | _ => mthrow Err.typeError
      | _ => mthrow Err.typeError
    else pure ()

/-- The property loop of `_build_default_obj_recursive` (parametrised
over the recursive call); a non-dict property raises, aborting the loop
as in Python. -/
def buildLoopG (recur : Addr → Addr → M Unit) : List (String × HVal) → Addr → M Unit
  | [], _ => pure ()
  | (name, property_) :: rest, accA => do
    match property_ with
    | HVal.ref pA => do
      buildStepG recur name pA accA
      buildLoopG recur rest accA
    | _ => mthrow Err.typeError

/-- `_build_default_obj_recursive` over the heap (fuel-bounded): walks
the `properties` dict at `propsA` and mutates the accumulator dict at
`accA` in place, exactly as the source mutates `default_object`. -/
def buildDefaultObj : Nat → Addr → Addr → M Unit
  | 0, _, _ => mthrow Err.typeError
  | n + 1, propsA, accA => do
    let es ← dictEntries propsA
    buildLoopG (buildDefaultObj n) es accA

/-- `_get_default_obj` over the heap: `deepcopy(schema["default"])` when
the schema has a `default`, else the object built by
`_build_default_obj_recursive` from `schema.get("properties", {})` into
a fresh `{}`. -/
def getDefaultObj (n : Nat) (schemaA : Addr) : M HVal :=
  tryKeyError
    (do
      let d ← dictGet schemaA "default"
      deepcopy n d)
    (do
      let p ← dictGetOpt schemaA "properties"
      let propsA ← match p with
        | some (HVal.ref a) => pure a
        | some _ => mthrow Err.typeError
        | Option.none => alloc (HObj.dict [])
      let accA ← alloc (HObj.dict [])
      buildDefaultObj n propsA accA
      pure (HVal.ref accA))

/-- The per-parameter `try`-block of `_get_query_defaults`: note that
the parameter-level `default` and the schema-level `default` are stored
into the result WITHOUT any copy — they alias the specification. -/
def queryDefaultsLoop : Nat → List (String × HVal) → Addr → M Unit
  | _, [], _ => pure ()
  | n, (k, v) :: rest, defaultsA => do
    tryKeyError
      (match v with
       | HVal.ref vA => do
         let hasD ← dictHas vA "default"
         if hasD then do
           let dv ← dictGet vA "default"
           dictSet defaultsA k dv
         else do
           let schemaV ← dictGet vA "schema"
           match schemaV with
           | HVal.ref sA => do
             let ty ← dictGet sA "type"
             if (match ty with | HVal.str s => s = "object" | _ => false : Bool) then do
               let obj ← getDefaultObj n sA
               dictSet defaultsA k obj
             else do
               let dv ← dictGet sA "default"
               dictSet defaultsA k dv
           | _ => mthrow Err.typeError
       | _ => mthrow Err.typeError)
      (pure ())
    queryDefaultsLoop n rest defaultsA

/-- `_get_query_defaults` over the heap: builds a fresh `defaults` dict
from the query parameter definitions dict at `qdefsA`. -/
def getQueryDefaults (n : Nat) (qdefsA : Addr) : M Addr := do
  let defaultsA ← alloc (HObj.dict [])
  let es ← dictEntries qdefsA
  queryDefaultsLoop n es defaultsA
  pure defaultsA

end Hp

/-- The concrete specification heap for the C3 counterexample: address 0
holds the parameter-level default object `{"a": 1}`, address 1 the query
parameter definition `{"default": <0>}`, address 2 the parameter
definitions mapping `{"p": <1>}`. -/
def c3heap : Hp.HeapSt :=
  { objs := [(0, Hp.HObj.dict [("a", Hp.HVal.int 1)]),
             (1, Hp.HObj.dict [("default", Hp.HVal.ref 0)]),
             (2, Hp.HObj.dict [("p", Hp.HVal.ref 1)])],
    next := 3 }

/-- Reads the specification's nested default value
`query_definitions["p"]["default"]["a"]`. -/
def c3ReadSpec : Hp.M Hp.HVal := do
  let param ← Hp.dictGet 2 "p"
  match param with
  | Hp.HVal.ref prmA => do
    let dflt ← Hp.dictGet prmA "default"
    match dflt with
    | Hp.HVal.ref da => Hp.dictGet da "a"
    | _ => Hp.mthrow Err.typeError
  | _ => Hp.mthrow Err.typeError

/-- Resolves the defaults for the definitions at address 2, then mutates
the RETURNED mapping only: `defaults["p"]["a"] = 2`; finally reads the
specification's own default value back. -/
def c3Mutate : Hp.M Hp.HVal := do
  let dA ← Hp.getQueryDefaults 10 2
  let pv ← Hp.dictGet dA "p"
  match pv with
  | Hp.HVal.ref pa => do
    Hp.dictSet pa "a" (Hp.HVal.int 2)
    c3ReadSpec
  | _ => Hp.mthrow Err.typeError

/-- Claim C3 counterexample: before resolution the specification's
nested default is `1`; after resolving the defaults and mutating only
the returned mapping (`defaults["p"]["a"] = 2`), the specification's own
default reads back as `2` — `_get_query_defaults` stored the
parameter-level default by reference, so mutating the returned mapping
mutated the specification. -/
theorem query_defaults_alias_c3_cex :
    (c3ReadSpec c3heap).1 = Except.ok (Hp.HVal.int 1) ∧
    (c3Mutate c3heap).1 = Except.ok (Hp.HVal.int 2) :=
  ⟨rfl, rfl⟩

namespace Hp

/-- The Python dict invariant: every dict in the heap has unique keys. -/
def WFd (h : HeapSt) : Prop :=
  ∀ p ∈ h.objs, match p.2 with | HObj.dict es => (es.map Prod.fst).Nodup

/-- Heap evolution that leaves every address below the baseline `n0`
untouched (and never reuses addresses). -/
def FrameAt (n0 : Nat) (h h' : HeapSt) : Prop :=
  h.next ≤ h'.next ∧ ∀ a, a < n0 → h'.find a = h.find a

theorem frame_refl (n0 : Nat) (h : HeapSt) : FrameAt n0 h h :=
  ⟨Nat.le_refl _, fun _ _ => rfl⟩

theorem frame_trans {n0 : Nat} {h1 h2 h3 : HeapSt}
    (a : FrameAt n0 h1 h2) (b : FrameAt n0 h2 h3) : FrameAt n0 h1 h3 :=
  ⟨Nat.le_trans a.1 b.1, fun x hx => (b.2 x hx).trans (a.2 x hx)⟩

theorem frame_mono {n0 n1 : Nat} {h h' : HeapSt} (hle : n0 ≤ n1)
    (f : FrameAt n1 h h') : FrameAt n0 h h' :=
  ⟨f.1, fun a ha => f.2 a (Nat.lt_of_lt_of_le ha hle)⟩

theorem aGet_mem : ∀ (l : List (Addr × HObj)) (a : Addr) (o : HObj),
    aGet l a = some o → (a, o) ∈ l := by
  intro l
  induction l with
  | nil => intro a o h; simp [aGet] at h
  | cons p rest ih =>
    intro a o h
    obtain ⟨a', o'⟩ := p
    simp only [aGet] at h
    by_cases he : a' = a
    · rw [if_pos he] at h
      injection h with h
      subst he
      subst h
      simp
    · rw [if_neg he] at h
      exact List.mem_cons_of_mem _ (ih a o h)

/-- The entries of any dict found in a well-formed heap have unique
keys. -/
theorem wfd_find {h : HeapSt} (hwf : WFd h) {a : Addr} {es : List (String × HVal)}
    (hf : h.find a = some (HObj.dict es)) : (es.map Prod.fst).Nodup := by
  have := hwf _ (aGet_mem _ _ _ hf)
  exact this

theorem eGet_eSet_self (es : List (String × HVal)) (k : String) (v : HVal) :
    eGet (eSet es k v) k = some v := by
  induction es with
  | nil => simp [eSet, eGet]
  | cons kv rest ih =>
    obtain ⟨k', v'⟩ := kv
    by_cases h : k' = k <;> simp [eSet, eGet, h, ih]

theorem eGet_eSet_ne (es : List (String × HVal)) (k k' : String) (v : HVal)
    (h : k' ≠ k) : eGet (eSet es k v) k' = eGet es k' := by
  have hk : ¬ k = k' := fun h0 => h h0.symm
  induction es with
  | nil => simp [eSet, eGet, hk]
  | cons kv rest ih =>
    obtain ⟨k₀, v₀⟩ := kv
    by_cases h0 : k₀ = k
    · subst h0
      simp [eSet, eGet, hk]
    · simp only [eSet, if_neg h0, eGet]
      by_cases h1 : k₀ = k' <;> simp [h1, ih]

theorem eSet_keys (es : List (String × HVal)) (k : String) (v : HVal) :
    (eSet es k v).map Prod.fst = es.map Prod.fst ∨
      ((eSet es k v).map Prod.fst = es.map Prod.fst ++ [k] ∧ k ∉ es.map Prod.fst) := by
  induction es with
  | nil => exact Or.inr ⟨rfl, by simp⟩
  | cons kv rest ih =>
    obtain ⟨k', v'⟩ := kv
    by_cases h : k' = k
    · subst h
      exact Or.inl (by simp [eSet])
    · rcases ih with h1 | ⟨h1, h2⟩
      · exact Or.inl (by simp [eSet, h, h1])
      · refine Or.inr ⟨by simp [eSet, h, h1], ?_⟩
        simp only [List.map, List.mem_cons, not_or]
        exact ⟨fun he => h he.symm, h2⟩

theorem eSet_nodup (es : List (String × HVal)) (k : String) (v : HVal)
    (h : (es.map Prod.fst).Nodup) : ((eSet es k v).map Prod.fst).Nodup := by
  rcases eSet_keys es k v with h1 | ⟨h1, h2⟩
  · rw [h1]
    exact h
  · rw [h1]
    rw [List.nodup_append]
    exact ⟨h, List.nodup_singleton k, by simpa using h2⟩

/-! ### Evaluation shapes of the heap operations -/

theorem bindM_app {α β : Type} (m : M α) (f : α → M β) (h : HeapSt) :
    (m >>= f) h = match m h with
      | (Except.ok a, h') => f a h'
      | (Except.error e, h') => (Except.error e, h') := rfl

theorem dictEntries_app (a : Addr) (h : HeapSt) :
    dictEntries a h = match h.find a with
      | some (HObj.dict es) => (Except.ok es, h)
      | Option.none => (Except.error Err.typeError, h) := by
  simp only [dictEntries, readObj, bindM_app]
  cases hf : h.find a with
  | none => simp [hf]
  | some o =>
    cases o with
    | dict es =>
      simp only [hf]
      rfl

theorem dictGet_app (a : Addr) (k : String) (h : HeapSt) :
    dictGet a k h = match h.find a with
      | some (HObj.dict es) =>
        (match eGet es k with
         | some v => (Except.ok v, h)
         | Option.none => (Except.error Err.keyError, h))
      | Option.none => (Except.error Err.typeError, h) := by
  simp only [dictGet, bindM_app, dictEntries_app]
  cases hf : h.find a with
  | none => simp [hf]
  | some o =>
    cases o with
    | dict es =>
      simp only [hf]
      cases eGet es k <;> rfl

theorem dictGetOpt_app (a : Addr) (k : String) (h : HeapSt) :
    dictGetOpt a k h = match h.find a with
      | some (HObj.dict es) => (Except.ok (eGet es k), h)
      | Option.none => (Except.error Err.typeError, h) := by
  simp only [dictGetOpt, bindM_app, dictEntries_app]
  cases hf : h.find a with
  | none => simp [hf]
  | some o =>
    cases o with
    | dict es =>
      simp only [hf]
      rfl

theorem dictHas_app (a : Addr) (k : String) (h : HeapSt) :
    dictHas a k h = match h.find a with
      | some (HObj.dict es) => (Except.ok (eGet es k).isSome, h)
      | Option.none => (Except.error Err.typeError, h) := by
  simp only [dictHas, bindM_app, dictEntries_app]
  cases hf : h.find a with
  | none => simp [hf]
  | some o =>
    cases o with
    | dict es =>
      simp only [hf]
      rfl

theorem dictSet_app (a : Addr) (k : String) (v : HVal) (h : HeapSt) :
    dictSet a k v h = match h.find a with
      | some (HObj.dict es) =>
        (Except.ok (), ⟨(a, HObj.dict (eSet es k v)) :: h.objs, h.next⟩)
      | Option.none => (Except.error Err.typeError, h) := by
  simp only [dictSet, writeObj, bindM_app, dictEntries_app]
  cases hf : h.find a with
  | none => simp [hf]
  | some o => cases o with | dict es => simp [hf]

theorem alloc_app (o : HObj) (h : HeapSt) :
    alloc o h = (Except.ok h.next, ⟨(h.next, o) :: h.objs, h.next + 1⟩) := rfl

theorem pure_app {α : Type} (x : α) (h : HeapSt) :
    (pure x : M α) h = (Except.ok x, h) := rfl

theorem mthrow_app {α : Type} (e : Err) (h : HeapSt) :
    (mthrow e : M α) h = (Except.error e, h) := rfl

/-- Finding an address below `next` is unchanged by consing a binding at
an address not equal to it. -/
theorem find_cons_ne (h : HeapSt) (b : Addr) (o : HObj) (a : Addr) (hne : a ≠ b)
    (next' : Addr) :
    HeapSt.find ⟨(b, o) :: h.objs, next'⟩ a = h.find a := by
  unfold HeapSt.find
  simp only [aGet]
  rw [if_neg (fun he => hne he.symm)]

/-! ### Frame and well-formedness preservation -/

/-- A computation is frame-safe at `n0`: from any well-formed heap whose
fresh addresses start at or above `n0`, it leaves every address below
`n0` untouched and keeps the heap well-formed. -/
def Pres (n0 : Nat) {α : Type} (m : M α) : Prop :=
  ∀ h, n0 ≤ h.next → WFd h → FrameAt n0 h (m h).2 ∧ WFd (m h).2

theorem pres_of_state_id {α : Type} {m : M α} (hid : ∀ h, (m h).2 = h) (n0 : Nat) :
    Pres n0 m := by
  intro h hn hw
  rw [hid]
  exact ⟨frame_refl _ _, hw⟩

theorem dictEntries_state (a : Addr) (h : HeapSt) : (dictEntries a h).2 = h := by
  rw [dictEntries_app]
  cases h.find a with
  | none => rfl
  | some o => cases o with | dict es => rfl

theorem dictGet_state (a : Addr) (k : String) (h : HeapSt) : (dictGet a k h).2 = h := by
  rw [dictGet_app]
  cases h.find a with
  | none => rfl
  | some o =>
    cases o with
    | dict es =>
      show (match eGet es k with
        | some v => (Except.ok v, h)
        | Option.none => (Except.error Err.keyError, h)).2 = h
      cases eGet es k <;> rfl

theorem dictGetOpt_state (a : Addr) (k : String) (h : HeapSt) : (dictGetOpt a k h).2 = h := by
  rw [dictGetOpt_app]
  cases h.find a with
  | none => rfl
  | some o => cases o with | dict es => rfl

theorem dictHas_state (a : Addr) (k : String) (h : HeapSt) : (dictHas a k h).2 = h := by
  rw [dictHas_app]
  cases h.find a with
  | none => rfl
  | some o => cases o with | dict es => rfl

theorem pres_pure {α : Type} (n0 : Nat) (x : α) : Pres n0 (pure x : M α) :=
  pres_of_state_id (fun _ => rfl) n0

theorem pres_mthrow {α : Type} (n0 : Nat) (e : Err) : Pres n0 (mthrow e : M α) :=
  pres_of_state_id (fun _ => rfl) n0

theorem pres_bind {α β : Type} {n0 : Nat} {m : M α} {f : α → M β}
    (hm : Pres n0 m) (hf : ∀ a, Pres n0 (f a)) : Pres n0 (m >>= f) := by
  intro h hn hw
  rw [bindM_app]
  cases hmh : m h with
  | mk r h' =>
    have hm' := hm h hn hw
    rw [hmh] at hm'
    cases r with
    | error e => exact hm'
    | ok a =>
      have hn' : n0 ≤ h'.next := Nat.le_trans hn hm'.1.1
      have hf' := hf a h' hn' hm'.2
      exact ⟨frame_trans hm'.1 hf'.1, hf'.2⟩

theorem pres_tryKeyError {α : Type} {n0 : Nat} {m fb : M α}
    (hm : Pres n0 m) (hfb : Pres n0 fb) : Pres n0 (tryKeyError m fb) := by
  intro h hn hw
  unfold tryKeyError
  cases hmh : m h with
  | mk r h' =>
    have hm' := hm h hn hw
    rw [hmh] at hm'
    cases r with
    | ok a => exact hm'
    | error e =>
      cases e with
      | keyError =>
        have hn' : n0 ≤ h'.next := Nat.le_trans hn hm'.1.1
        have hfb' := hfb h' hn' hm'.2
        exact ⟨frame_trans hm'.1 hfb'.1, hfb'.2⟩
      | typeCoercion => exact hm'
      | typeError => exact hm'

/-- A well-formed heap stays well-formed when a dict with unique keys is
added or overwritten. -/
theorem wfd_cons {h : HeapSt} (hw : WFd h) (b : Addr) (es : List (String × HVal))
    (hnd : (es.map Prod.fst).Nodup) (next' : Addr) :
    WFd ⟨(b, HObj.dict es) :: h.objs, next'⟩ := by
  intro p hp
  rcases List.mem_cons.mp hp with h1 | h1
  · subst h1
    exact hnd
  · exact hw p h1

theorem pres_alloc (n0 : Nat) (es : List (String × HVal))
    (hnd : (es.map Prod.fst).Nodup) : Pres n0 (alloc (HObj.dict es)) := by
  intro h hn hw
  rw [alloc_app]
  refine ⟨⟨Nat.le_succ _, fun a ha => ?_⟩, wfd_cons hw _ _ hnd _⟩
  exact find_cons_ne h h.next _ a (Nat.ne_of_lt (Nat.lt_of_lt_of_le ha hn)) _

theorem pres_dictSet (n0 : Nat) (a : Addr) (k : String) (v : HVal) (ha : n0 ≤ a) :
    Pres n0 (dictSet a k v) := by
  intro h hn hw
  rw [dictSet_app]
  cases hf : h.find a with
  | none => exact ⟨frame_refl _ _, hw⟩
  | some o =>
    cases o with
    | dict es =>
      refine ⟨⟨Nat.le_refl _, fun x hx => ?_⟩, ?_⟩
      · exact find_cons_ne h a _ x (Nat.ne_of_lt (Nat.lt_of_lt_of_le hx ha)) _
      · exact wfd_cons hw a _ (eSet_nodup es k v (wfd_find hw hf)) _

theorem pres_pycopy (n0 : Nat) (v : HVal) : Pres n0 (pycopy v) := by
  cases v with
  | ref a =>
    have happ : ∀ h : HeapSt, pycopy (HVal.ref a) h = match h.find a with
        | some (HObj.dict es) => (alloc (HObj.dict es) >>= fun a' => pure (HVal.ref a')) h
        | Option.none => (Except.error Err.typeError, h) := by
      intro h
      simp only [pycopy, bindM_app, dictEntries_app]
      cases h.find a with
      | none => rfl
      | some o => cases o with | dict es => rfl
    intro h hn hw
    rw [happ]
    cases hf : h.find a with
    | none => exact ⟨frame_refl _ _, hw⟩
    | some o =>
      cases o with
      | dict es =>
        exact pres_bind (pres_alloc n0 es (wfd_find hw hf))
          (fun a' => pres_pure n0 (HVal.ref a')) h hn hw
  | none => exact pres_pure n0 _
  | bool b => exact pres_pure n0 _
  | int n => exact pres_pure n0 _
  | str s => exact pres_pure n0 _

/-- The specification of `deepcopy` at fuel `n`: frame-safe and
well-formedness preserving at every baseline. -/
def DcSpec (n0 n : Nat) : Prop :=
  ∀ v h, n0 ≤ h.next → WFd h →
    FrameAt n0 h ((deepcopy n v) h).2 ∧ WFd ((deepcopy n v) h).2

/-- The specification of `deepcopyEntries` at fuel `n`: frame-safe,
well-formedness preserving, and key-list preserving on success. -/
def DeSpec (n0 n : Nat) : Prop :=
  ∀ es (h : HeapSt), n0 ≤ h.next → WFd h →
    FrameAt n0 h ((deepcopyEntries n es) h).2 ∧ WFd ((deepcopyEntries n es) h).2 ∧
    ∀ es', ((deepcopyEntries n es) h).1 = Except.ok es' →
      es'.map Prod.fst = es.map Prod.fst

theorem deSpec_of_dcSpec (n0 n : Nat) (hdc : DcSpec n0 n) : DeSpec n0 n := by
  intro es
  induction es with
  | nil =>
    intro h hn hw
    have he : deepcopyEntries n [] h = (Except.ok [], h) := by
      simp [deepcopyEntries]
      rfl
    rw [he]
    exact ⟨frame_refl _ _, hw, fun es' h' => by injection h' with h'; rw [← h']⟩
  | cons kv rest ih =>
    intro h hn hw
    obtain ⟨k, v⟩ := kv
    have he : deepcopyEntries n ((k, v) :: rest) h =
        ((deepcopy n v >>= fun v0 => deepcopyEntries n rest >>= fun rest0 =>
          pure ((k, v0) :: rest0)) h) := by
      rw [deepcopyEntries]
    rw [he, bindM_app]
    split
    next v0 h1 hdv =>
      have hd := hdc v h hn hw
      rw [hdv] at hd
      have hn1 : n0 ≤ h1.next := Nat.le_trans hn hd.1.1
      rw [bindM_app]
      split
      next rest0 h2 hre =>
        have hr := ih h1 hn1 hd.2
        rw [hre] at hr
        refine ⟨frame_trans hd.1 hr.1, hr.2.1, ?_⟩
        intro es' h'
        simp only [pure_app, Except.ok.injEq] at h'
        subst h'
        simp only [List.map]
        rw [hr.2.2 rest0 rfl]
      next e h2 hre =>
        have hr := ih h1 hn1 hd.2
        rw [hre] at hr
        exact ⟨frame_trans hd.1 hr.1, hr.2.1, fun es' h' => by exact absurd h' (by simp)⟩
    next e h1 hdv =>
      have hd := hdc v h hn hw
      rw [hdv] at hd
      exact ⟨hd.1, hd.2, fun es' h' => by exact absurd h' (by simp)⟩

theorem dcSpec_all (n0 : Nat) : ∀ n, DcSpec n0 n ∧ DeSpec n0 n := by
  intro n
  induction n with
  | zero =>
    have hdc : DcSpec n0 0 := by
      intro v h hn hw
      have he : deepcopy 0 v h = (Except.error Err.typeError, h) := by
        simp [deepcopy, mthrow]
      rw [he]
      exact ⟨frame_refl _ _, hw⟩
    exact ⟨hdc, deSpec_of_dcSpec n0 0 hdc⟩
  | succ n ih =>
    have hdc : DcSpec n0 (n + 1) := by
      intro v h hn hw
      cases v with
      | ref a =>
        have he : deepcopy (n + 1) (HVal.ref a) h =
            ((dictEntries a >>= fun es => deepcopyEntries n es >>= fun es' =>
              alloc (HObj.dict es') >>= fun a' => pure (HVal.ref a')) h) := by
          rw [deepcopy]
        rw [he, bindM_app, dictEntries_app]
        cases hf : h.find a with
        | none => exact ⟨frame_refl _ _, hw⟩
        | some o =>
          cases o with
          | dict es =>
            show FrameAt n0 h (((deepcopyEntries n es >>= fun es' =>
                alloc (HObj.dict es') >>= fun a' => pure (HVal.ref a')) h)).2 ∧
              WFd (((deepcopyEntries n es >>= fun es' =>
                alloc (HObj.dict es') >>= fun a' => pure (HVal.ref a')) h)).2
            rw [bindM_app]
            split
            next es' h1 hre =>
              have hr := ih.2 es h hn hw
              rw [hre] at hr
              have hn1 : n0 ≤ h1.next := Nat.le_trans hn hr.1.1
              have hnd : (es'.map Prod.fst).Nodup := by
                rw [hr.2.2 es' rfl]
                exact wfd_find hw hf
              have ha := pres_bind (pres_alloc n0 es' hnd)
                (fun a' => pres_pure n0 (HVal.ref a')) h1 hn1 hr.2.1
              exact ⟨frame_trans hr.1 ha.1, ha.2⟩
            next e h1 hre =>
              have hr := ih.2 es h hn hw
              rw [hre] at hr
              exact ⟨hr.1, hr.2.1⟩
      | none =>
        have he : deepcopy (n + 1) HVal.none h = (Except.ok HVal.none, h) := by
          rw [deepcopy] <;> first | rfl | (intro x hx; exact HVal.noConfusion hx)
        rw [he]
        exact ⟨frame_refl _ _, hw⟩
      | bool b =>
        have he : deepcopy (n + 1) (HVal.bool b) h = (Except.ok (HVal.bool b), h) := by
          rw [deepcopy] <;> first | rfl | (intro x hx; exact HVal.noConfusion hx)
        rw [he]
        exact ⟨frame_refl _ _, hw⟩
      | int i =>
        have he : deepcopy (n + 1) (HVal.int i) h = (Except.ok (HVal.int i), h) := by
          rw [deepcopy] <;> first | rfl | (intro x hx; exact HVal.noConfusion hx)
        rw [he]
        exact ⟨frame_refl _ _, hw⟩
      | str s =>
        have he : deepcopy (n + 1) (HVal.str s) h = (Except.ok (HVal.str s), h) := by
          rw [deepcopy] <;> first | rfl | (intro x hx; exact HVal.noConfusion hx)
        rw [he]
        exact ⟨frame_refl _ _, hw⟩
    exact ⟨hdc, deSpec_of_dcSpec n0 (n + 1) hdc⟩


/-- The object just consed onto the heap is what `find` returns at its
address. -/
theorem find_cons_self (b : Addr) (o : HObj) (objs : List (Addr × HObj)) (nx : Addr) :
    HeapSt.find ⟨(b, o) :: objs, nx⟩ b = some o := by
  unfold HeapSt.find
  simp [aGet]

theorem find_dict_inj {h : HeapSt} {a : Addr} {aes aes' : List (String × HVal)}
    (h1 : h.find a = some (HObj.dict aes)) (h2 : h.find a = some (HObj.dict aes')) :
    aes' = aes := by
  rw [h1] at h2
  injection h2 with h3
  injection h3 with h4
  exact h4.symm

/-- What one loop iteration of `_build_default_obj_recursive` guarantees
about its result `r` from heap `h`: the baseline frame is respected, the
heap stays well-formed, and on success the accumulator existed as a dict
before and every key other than the iteration's own `name` is unchanged
in it. -/
def StepTriple (n0 : Nat) (name : String) (accA : Addr) (h : HeapSt)
    (r : Except Err Unit × HeapSt) : Prop :=
  FrameAt n0 h r.2 ∧ WFd r.2 ∧
    ∀ u : Unit, r.1 = Except.ok u →
      (∃ aes, h.find accA = some (HObj.dict aes)) ∧
      ∀ aes aes', h.find accA = some (HObj.dict aes) →
        r.2.find accA = some (HObj.dict aes') →
        ∀ k, k ≠ name → eGet aes' k = eGet aes k

/-- A computation that returns successfully without touching the heap
satisfies the step triple. -/
theorem step_noop {n0 : Nat} (name : String) {accA : Addr} {h : HeapSt} (hw : WFd h)
    {aes0 : List (String × HVal)} (hfa : h.find accA = some (HObj.dict aes0))
    {m : M Unit} (he : m h = (Except.ok (), h)) :
    StepTriple n0 name accA h (m h) := by
  rw [he]
  exact ⟨frame_refl _ _, hw,
    fun u _ => ⟨⟨aes0, hfa⟩, fun aes aes' h1 h2 k _ => by rw [find_dict_inj h1 h2]⟩⟩

/-- A computation that fails without touching the heap satisfies the
step triple. -/
theorem step_err {n0 : Nat} (name : String) (accA : Addr) {h : HeapSt} (hw : WFd h)
    {m : M Unit} (e : Err) (he : m h = (Except.error e, h)) :
    StepTriple n0 name accA h (m h) := by
  rw [he]
  exact ⟨frame_refl _ _, hw, fun u hu => absurd hu (by simp)⟩

/-- The induction hypothesis available to one unfolding of the builder:
from any well-formed heap whose accumulator address is fresh-side and
holds an empty dict, the recursive call respects the baseline frame and
keeps the heap well-formed. -/
def RecurSpec (recur : Addr → Addr → M Unit) : Prop :=
  ∀ (n0 ppA accA : Nat) (h : HeapSt), n0 ≤ h.next → WFd h → n0 ≤ accA → accA < h.next →
    (∀ aes, h.find accA = some (HObj.dict aes) → aes = []) →
    FrameAt n0 h ((recur ppA accA) h).2 ∧ WFd ((recur ppA accA) h).2

/-- The tail of the `setdefault`-and-recurse branch of one builder loop
iteration, after `default_object[name]` has been set to the fresh empty
dict at `na`. -/
def buildTail (recur : Addr → Addr → M Unit) (name : String) (pA accA na : Addr) : M Unit :=
  dictGet pA "properties" >>= fun propsV =>
    match propsV with
    | HVal.ref ppA => recur ppA na >>= fun _ => dictSet accA name (HVal.ref na)
    | _ => mthrow Err.typeError

/-- The `setdefault`-and-recurse tail respects the step triple: given the
accumulator already maps `name` to the fresh empty dict at `na`, the tail
only changes `name`'s entry of the accumulator and fresh addresses. -/
theorem buildTail_spec (recur : Addr → Addr → M Unit) (hrec : RecurSpec recur)
    (n0 : Nat) (name : String) (pA accA na : Addr) (aes0 : List (String × HVal))
    (h2 : HeapSt) (hw2 : WFd h2) (hacc : n0 ≤ accA)
    (hna : accA < na) (hnan : na < h2.next)
    (hf2acc : h2.find accA = some (HObj.dict (eSet aes0 name (HVal.ref na))))
    (hf2na : h2.find na = some (HObj.dict [])) :
    FrameAt n0 h2 ((buildTail recur name pA accA na) h2).2 ∧
    WFd ((buildTail recur name pA accA na) h2).2 ∧
      ∀ u : Unit, ((buildTail recur name pA accA na) h2).1 = Except.ok u →
        ∀ aes', ((buildTail recur name pA accA na) h2).2.find accA = some (HObj.dict aes') →
          ∀ k, k ≠ name → eGet aes' k = eGet (eSet aes0 name (HVal.ref na)) k := by
  have hn0na : n0 ≤ na := Nat.le_of_lt (Nat.lt_of_le_of_lt hacc hna)
  have hempty : ∀ aes, h2.find na = some (HObj.dict aes) → aes = [] := by
    intro aes he'
    rw [hf2na] at he'
    injection he' with x
    injection x with y
    exact y.symm
  cases hfp2 : h2.find pA with
  | none =>
    have he : buildTail recur name pA accA na h2 = (Except.error Err.typeError, h2) := by
      simp [buildTail, bindM_app, dictGet_app, hfp2]
    rw [he]
    exact ⟨frame_refl _ _, hw2, fun u hu => absurd hu (by simp)⟩
  | some o =>
    cases o with
    | dict pes2 =>
      cases hprop : eGet pes2 "properties" with
      | none =>
        have he : buildTail recur name pA accA na h2 = (Except.error Err.keyError, h2) := by
          simp [buildTail, bindM_app, dictGet_app, mthrow, hfp2, hprop]
        rw [he]
        exact ⟨frame_refl _ _, hw2, fun u hu => absurd hu (by simp)⟩
      | some pv =>
        cases pv with
        | none =>
          have he : buildTail recur name pA accA na h2 = (Except.error Err.typeError, h2) := by
            simp [buildTail, bindM_app, dictGet_app, mthrow, hfp2, hprop]
          rw [he]
          exact ⟨frame_refl _ _, hw2, fun u hu => absurd hu (by simp)⟩
        | bool b =>
          have he : buildTail recur name pA accA na h2 = (Except.error Err.typeError, h2) := by
            simp [buildTail, bindM_app, dictGet_app, mthrow, hfp2, hprop]
          rw [he]
          exact ⟨frame_refl _ _, hw2, fun u hu => absurd hu (by simp)⟩
        | int i =>
          have he : buildTail recur name pA accA na h2 = (Except.error Err.typeError, h2) := by
            simp [buildTail, bindM_app, dictGet_app, mthrow, hfp2, hprop]
          rw [he]
          exact ⟨frame_refl _ _, hw2, fun u hu => absurd hu (by simp)⟩
        | str s =>
          have he : buildTail recur name pA accA na h2 = (Except.error Err.typeError, h2) := by
            simp [buildTail, bindM_app, dictGet_app, mthrow, hfp2, hprop]
          rw [he]
          exact ⟨frame_refl _ _, hw2, fun u hu => absurd hu (by simp)⟩
        | ref ppA =>
          have he : buildTail recur name pA accA na h2 =
              (recur ppA na >>= fun _ => dictSet accA name (HVal.ref na)) h2 := by
            simp [buildTail, bindM_app, dictGet_app, mthrow, hfp2, hprop]
          rw [he, bindM_app]
          split
          next u0 h3 hrc =>
            have hr := hrec na ppA na h2 (Nat.le_of_lt hnan) hw2 (Nat.le_refl na) hnan hempty
            rw [hrc] at hr
            have hf3acc : h3.find accA = some (HObj.dict (eSet aes0 name (HVal.ref na))) := by
              rw [hr.1.2 accA hna]
              exact hf2acc
            simp only [dictSet_app, hf3acc]
            refine ⟨?_, ?_, ?_⟩
            · refine frame_trans (frame_mono hn0na hr.1) ⟨Nat.le_refl _, fun a ha => ?_⟩
              exact find_cons_ne h3 accA _ a (Nat.ne_of_lt (Nat.lt_of_lt_of_le ha hacc)) _
            · exact wfd_cons hr.2 accA _ (eSet_nodup _ name _ (wfd_find hr.2 hf3acc)) _
            · intro u hu aes' hfa' k hk
              have ha' : aes' = eSet (eSet aes0 name (HVal.ref na)) name (HVal.ref na) := by
                rw [find_cons_self] at hfa'
                injection hfa' with x
                injection x with y
                exact y.symm
              rw [ha', eGet_eSet_ne _ name k _ hk]
          next e h3 hrc =>
            have hr := hrec na ppA na h2 (Nat.le_of_lt hnan) hw2 (Nat.le_refl na) hnan hempty
            rw [hrc] at hr
            exact ⟨frame_mono hn0na hr.1, hr.2, fun u hu => absurd hu (by simp)⟩

/-- Finding under a cons at a different address skips the cons,
regardless of either `next` value. -/
theorem find_cons_ne2 (b : Addr) (o : HObj) (objs : List (Addr × HObj)) (nx : Addr)
    (a : Addr) (hne : ¬ b = a) :
    HeapSt.find ⟨(b, o) :: objs, nx⟩ a = HeapSt.find ⟨objs, nx⟩ a := by
  unfold HeapSt.find
  simp only [aGet]
  rw [if_neg hne]

/-- One loop iteration of `_build_default_obj_recursive` satisfies the
step triple, given the iteration's name is not yet in the accumulator
and the recursive call respects `RecurSpec`. -/
theorem stepG_spec (recur : Addr → Addr → M Unit) (hrec : RecurSpec recur)
    (n0 : Nat) (name : String) (pA accA : Addr) (h : HeapSt)
    (hn : n0 ≤ h.next) (hw : WFd h) (hacc : n0 ≤ accA) (haccn : accA < h.next)
    (hname : ∀ aes, h.find accA = some (HObj.dict aes) → eGet aes name = Option.none) :
    StepTriple n0 name accA h (buildStepG recur name pA accA h) := by
  cases hfp : h.find pA with
  | none =>
    exact step_err name accA hw Err.typeError (by simp [buildStepG, bindM_app, dictHas_app, hfp])
  | some op =>
    cases op with
    | dict pes =>
      cases hfa : h.find accA with
      | none =>
        exact step_err name accA hw Err.typeError
          (by simp [buildStepG, bindM_app, dictHas_app, hfp, hfa])
      | some oa =>
        cases oa with
        | dict aes0 =>
          have hge : eGet aes0 name = Option.none := hname aes0 hfa
          have hfa2 : aGet h.objs accA = some (HObj.dict aes0) := hfa
          have hfpA : aGet h.objs pA = some (HObj.dict pes) := hfp
          have hne1 : ¬ (h.next = accA) := fun he' => absurd (he' ▸ haccn) (Nat.lt_irrefl _)
          cases hdef : eGet pes "default" with
          | some dv =>
            have he : buildStepG recur name pA accA h =
                (pycopy dv >>= fun cv => dictSet accA name cv) h := by
              simp [buildStepG, bindM_app, dictHas_app, dictGet_app, hfp, hfa, hdef, hge]
            rw [he, bindM_app]
            split
            next cv h1 hpc =>
              have hpb := pres_pycopy h.next dv h (Nat.le_refl _) hw
              rw [hpc] at hpb
              have hfa1 : h1.find accA = some (HObj.dict aes0) := by
                rw [hpb.1.2 accA haccn]
                exact hfa
              simp only [dictSet_app, hfa1]
              refine ⟨?_, ?_, ?_⟩
              · refine frame_trans (frame_mono hn hpb.1) ⟨Nat.le_refl _, fun a ha => ?_⟩
                exact find_cons_ne h1 accA _ a (Nat.ne_of_lt (Nat.lt_of_lt_of_le ha hacc)) _
              · exact wfd_cons hpb.2 accA _ (eSet_nodup aes0 name cv (wfd_find hpb.2 hfa1)) _
              · intro u hu
                refine ⟨⟨aes0, hfa⟩, ?_⟩
                intro aes aes' hfaX hfa' k hk
                have haX : aes = aes0 := find_dict_inj hfa hfaX
                have ha' : aes' = eSet aes0 name cv := by
                  rw [find_cons_self] at hfa'
                  injection hfa' with x
                  injection x with y
                  exact y.symm
                rw [ha', haX, eGet_eSet_ne aes0 name k cv hk]
            next e h1 hpc =>
              have hpb := pres_pycopy h.next dv h (Nat.le_refl _) hw
              rw [hpc] at hpb
              exact ⟨frame_mono hn hpb.1, hpb.2, fun u hu => absurd hu (by simp)⟩
          | none =>
            cases hty : eGet pes "type" with
            | none =>
              exact step_noop name hw hfa
                (by simp [buildStepG, bindM_app, pure_app, dictHas_app, dictGetOpt_app,
                  hfp, hfa, hdef, hge, hty])
            | some tv =>
              cases tv with
              | none =>
                exact step_noop name hw hfa
                  (by simp [buildStepG, bindM_app, pure_app, dictHas_app, dictGetOpt_app,
                    hfp, hfa, hdef, hge, hty])
              | bool b =>
                exact step_noop name hw hfa
                  (by simp [buildStepG, bindM_app, pure_app, dictHas_app, dictGetOpt_app,
                    hfp, hfa, hdef, hge, hty])
              | int i =>
                exact step_noop name hw hfa
                  (by simp [buildStepG, bindM_app, pure_app, dictHas_app, dictGetOpt_app,
                    hfp, hfa, hdef, hge, hty])
              | ref a2 =>
                exact step_noop name hw hfa
                  (by simp [buildStepG, bindM_app, pure_app, dictHas_app, dictGetOpt_app,
                    hfp, hfa, hdef, hge, hty])
              | str s =>
                by_cases hs : s = "object"
                · subst hs
                  cases hprops : eGet pes "properties" with
                  | none =>
                    exact step_noop name hw hfa
                      (by simp [buildStepG, bindM_app, pure_app, dictHas_app, dictGetOpt_app,
                        hfp, hfa, hdef, hge, hty, hprops])
                  | some pv0 =>
                    have he : buildStepG recur name pA accA h =
                        buildTail recur name pA accA h.next
                          ⟨(accA, HObj.dict (eSet aes0 name (HVal.ref h.next))) ::
                            (h.next, HObj.dict []) :: h.objs, h.next + 1⟩ := by
                      simp [buildStepG, buildTail, bindM_app, dictHas_app, dictGetOpt_app,
                        dictGet_app, dictSet_app, alloc_app, hfp, hfa, hdef, hge, hty, hprops,
                        HeapSt.find, aGet, hne1, hfa2, hfpA, eGet_eSet_self]
                    rw [he]
                    have hwA : WFd ⟨(h.next, HObj.dict []) :: h.objs, h.next + 1⟩ :=
                      wfd_cons hw h.next [] List.nodup_nil _
                    have hw2 : WFd ⟨(accA, HObj.dict (eSet aes0 name (HVal.ref h.next))) ::
                        (h.next, HObj.dict []) :: h.objs, h.next + 1⟩ :=
                      wfd_cons hwA accA _ (eSet_nodup aes0 name _ (wfd_find hw hfa)) _
                    have hbt := buildTail_spec recur hrec n0 name pA accA h.next aes0
                      ⟨(accA, HObj.dict (eSet aes0 name (HVal.ref h.next))) ::
                        (h.next, HObj.dict []) :: h.objs, h.next + 1⟩
                      hw2 hacc haccn (Nat.lt_succ_self _)
                      (find_cons_self _ _ _ _)
                      (by
                        rw [find_cons_ne2 accA _ _ _ h.next (fun he' => hne1 he'.symm)]
                        exact find_cons_self _ _ _ _)
                    have hfr : FrameAt n0 h
                        ⟨(accA, HObj.dict (eSet aes0 name (HVal.ref h.next))) ::
                          (h.next, HObj.dict []) :: h.objs, h.next + 1⟩ := by
                      refine ⟨Nat.le_succ _, fun a ha => ?_⟩
                      rw [find_cons_ne2 accA _ _ _ a
                          (fun he' => absurd (he' ▸ ha) (Nat.not_lt.mpr hacc)),
                        find_cons_ne2 h.next _ _ _ a
                          (fun he' => absurd (he' ▸ ha) (Nat.not_lt.mpr hn))]
                      rfl
                    refine ⟨frame_trans hfr hbt.1, hbt.2.1, ?_⟩
                    intro u hu
                    refine ⟨⟨aes0, hfa⟩, ?_⟩
                    intro aes aes' hfaX hfa' k hk
                    have haX : aes = aes0 := find_dict_inj hfa hfaX
                    have hstep := hbt.2.2 u hu aes' hfa' k hk
                    rw [hstep, haX, eGet_eSet_ne aes0 name k _ hk]
                · exact step_noop name hw hfa
                    (by simp [buildStepG, bindM_app, pure_app, dictHas_app, dictGetOpt_app,
                      hfp, hfa, hdef, hge, hty, hs])

/-- The property loop of `_build_default_obj_recursive` respects the
baseline frame and preserves well-formedness, provided the remaining
property names are distinct and none of them is in the accumulator yet. -/
theorem loopG_spec (recur : Addr → Addr → M Unit) (hrec : RecurSpec recur) (n0 : Nat)
    (es : List (String × HVal)) : ∀ (accA : Nat) (h : HeapSt),
    n0 ≤ h.next → WFd h → n0 ≤ accA → accA < h.next →
    (es.map Prod.fst).Nodup →
    (∀ aes, h.find accA = some (HObj.dict aes) → ∀ k ∈ es.map Prod.fst, eGet aes k = Option.none) →
    FrameAt n0 h ((buildLoopG recur es accA) h).2 ∧ WFd ((buildLoopG recur es accA) h).2 := by
  induction es with
  | nil =>
    intro accA h hn hw _ _ _ _
    exact ⟨frame_refl _ _, hw⟩
  | cons kv rest ih =>
    intro accA h hn hw hacc haccn hnd hfresh
    obtain ⟨name, property_⟩ := kv
    obtain ⟨hnm, hndr⟩ := List.nodup_cons.mp hnd
    cases property_ with
    | ref pA =>
      have he : buildLoopG recur ((name, HVal.ref pA) :: rest) accA h =
          ((buildStepG recur name pA accA >>= fun _ => buildLoopG recur rest accA) h) := rfl
      rw [he, bindM_app]
      split
      next u h1 hst =>
        have hsp := stepG_spec recur hrec n0 name pA accA h hn hw hacc haccn
          (fun aes hfa => hfresh aes hfa name (by simp))
        unfold StepTriple at hsp
        rw [hst] at hsp
        obtain ⟨⟨aes00, hfa0⟩, hunch⟩ := hsp.2.2 u rfl
        have hn1 : n0 ≤ h1.next := Nat.le_trans hn hsp.1.1
        have haccn1 : accA < h1.next := Nat.lt_of_lt_of_le haccn hsp.1.1
        have hfr : ∀ aes1, h1.find accA = some (HObj.dict aes1) →
            ∀ k ∈ rest.map Prod.fst, eGet aes1 k = Option.none := by
          intro aes1 hfa1 k hk
          have hkne : k ≠ name := fun he' => hnm (he' ▸ hk)
          rw [hunch aes00 aes1 hfa0 hfa1 k hkne]
          exact hfresh aes00 hfa0 k (List.mem_cons_of_mem _ hk)
        have hrest := ih accA h1 hn1 hsp.2.1 hacc haccn1 hndr hfr
        exact ⟨frame_trans hsp.1 hrest.1, hrest.2⟩
      next e h1 hst =>
        have hsp := stepG_spec recur hrec n0 name pA accA h hn hw hacc haccn
          (fun aes hfa => hfresh aes hfa name (by simp))
        unfold StepTriple at hsp
        rw [hst] at hsp
        exact ⟨hsp.1, hsp.2.1⟩
    | none => exact ⟨frame_refl _ _, hw⟩
    | bool b => exact ⟨frame_refl _ _, hw⟩
    | int i => exact ⟨frame_refl _ _, hw⟩
    | str s => exact ⟨frame_refl _ _, hw⟩

/-- `_build_default_obj_recursive` respects the baseline frame and
preserves well-formedness at every fuel, for a fresh empty accumulator. -/
theorem buildDefaultObj_spec : ∀ n : Nat, RecurSpec (buildDefaultObj n) := by
  intro n
  induction n with
  | zero =>
    intro n0 ppA accA h hn hw _ _ _
    exact ⟨frame_refl _ _, hw⟩
  | succ n ih =>
    intro n0 ppA accA h hn hw hacc haccn hempty
    have he : buildDefaultObj (n + 1) ppA accA h =
        ((dictEntries ppA >>= fun es => buildLoopG (buildDefaultObj n) es accA) h) := by
      rw [buildDefaultObj]
    rw [he, bindM_app, dictEntries_app]
    cases hf : h.find ppA with
    | none => exact ⟨frame_refl _ _, hw⟩
    | some o =>
      cases o with
      | dict es =>
        show FrameAt n0 h ((buildLoopG (buildDefaultObj n) es accA) h).2 ∧
          WFd ((buildLoopG (buildDefaultObj n) es accA) h).2
        refine loopG_spec (buildDefaultObj n) ih n0 es accA h hn hw hacc haccn ?_ ?_
        · exact wfd_find hw hf
        · intro aes hfa k _
          rw [hempty aes hfa]
          rfl

theorem pres_ite {α : Type} (n0 : Nat) (c : Bool) {x y : M α}
    (hx : Pres n0 x) (hy : Pres n0 y) : Pres n0 (if c then x else y) := by
  cases c
  · exact hy
  · exact hx

/-- `_get_default_obj` respects the baseline frame and preserves
well-formedness: it only reads the schema and allocates fresh objects. -/
theorem pres_getDefaultObj (n0 n : Nat) (schemaA : Addr) :
    Pres n0 (getDefaultObj n schemaA) := by
  refine pres_tryKeyError ?_ ?_
  · exact pres_bind (pres_of_state_id (dictGet_state _ _) n0)
      (fun d h hn hw => (dcSpec_all n0 n).1 d h hn hw)
  · intro h hn hw
    simp only [bindM_app, dictGetOpt_app]
    cases hgo : h.find schemaA with
    | none => exact ⟨frame_refl _ _, hw⟩
    | some o =>
      cases o with
      | dict ses =>
        simp only [hgo]
        cases hp : eGet ses "properties" with
        | some pv =>
          cases pv with
          | ref a =>
            simp only [bindM_app, alloc_app, pure_app]
            have hwA : WFd ⟨(h.next, HObj.dict []) :: h.objs, h.next + 1⟩ :=
              wfd_cons hw h.next [] List.nodup_nil _
            have hfrA : FrameAt n0 h ⟨(h.next, HObj.dict []) :: h.objs, h.next + 1⟩ := by
              refine ⟨Nat.le_succ _, fun x hx => ?_⟩
              rw [find_cons_ne2 h.next _ _ _ x
                  (fun he' => absurd (he' ▸ hx) (Nat.not_lt.mpr hn))]
              rfl
            have hbs := buildDefaultObj_spec n h.next a h.next
              ⟨(h.next, HObj.dict []) :: h.objs, h.next + 1⟩
              (Nat.le_succ _) hwA (Nat.le_refl _) (Nat.lt_succ_self _)
              (by
                intro aes he'
                rw [find_cons_self] at he'
                injection he' with x
                injection x with y
                exact y.symm)
            cases hb3 : buildDefaultObj n a h.next
                ⟨(h.next, HObj.dict []) :: h.objs, h.next + 1⟩ with
            | mk rb h3 =>
              rw [hb3] at hbs
              cases rb with
              | ok u => exact ⟨frame_trans hfrA (frame_mono hn hbs.1), hbs.2⟩
              | error e => exact ⟨frame_trans hfrA (frame_mono hn hbs.1), hbs.2⟩
          | none => exact ⟨frame_refl _ _, hw⟩
          | bool b => exact ⟨frame_refl _ _, hw⟩
          | int i => exact ⟨frame_refl _ _, hw⟩
          | str s => exact ⟨frame_refl _ _, hw⟩
        | none =>
          simp only [bindM_app, alloc_app, pure_app]
          have hwA : WFd ⟨(h.next, HObj.dict []) :: h.objs, h.next + 1⟩ :=
            wfd_cons hw h.next [] List.nodup_nil _
          have hwB : WFd ⟨(h.next + 1, HObj.dict []) :: (h.next, HObj.dict []) :: h.objs,
              h.next + 2⟩ :=
            wfd_cons hwA (h.next + 1) [] List.nodup_nil _
          have hfrB : FrameAt n0 h
              ⟨(h.next + 1, HObj.dict []) :: (h.next, HObj.dict []) :: h.objs, h.next + 2⟩ := by
            refine ⟨Nat.le_trans (Nat.le_succ _) (Nat.le_succ _), fun x hx => ?_⟩
            rw [find_cons_ne2 (h.next + 1) _ _ _ x
                (fun he' => by
                  cases he'
                  exact absurd hx (Nat.not_lt.mpr (Nat.le_trans hn (Nat.le_succ _)))),
              find_cons_ne2 h.next _ _ _ x
                (fun he' => by
                  cases he'
                  exact absurd hx (Nat.not_lt.mpr hn))]
            rfl
          have hbs := buildDefaultObj_spec n (h.next + 1) h.next (h.next + 1)
            ⟨(h.next + 1, HObj.dict []) :: (h.next, HObj.dict []) :: h.objs, h.next + 2⟩
            (Nat.le_succ _) hwB (Nat.le_refl _) (Nat.lt_succ_self _)
            (by
              intro aes he'
              rw [find_cons_self] at he'
              injection he' with x
              injection x with y
              exact y.symm)
          cases hb3 : buildDefaultObj n h.next (h.next + 1)
              ⟨(h.next + 1, HObj.dict []) :: (h.next, HObj.dict []) :: h.objs, h.next + 2⟩ with
          | mk rb h3 =>
            rw [hb3] at hbs
            cases rb with
            | ok u =>
              exact ⟨frame_trans hfrB
                (frame_mono (Nat.le_trans hn (Nat.le_succ _)) hbs.1), hbs.2⟩
            | error e =>
              exact ⟨frame_trans hfrB
                (frame_mono (Nat.le_trans hn (Nat.le_succ _)) hbs.1), hbs.2⟩

/-- The parameter loop of `_get_query_defaults` only reads the
definitions, writes the fresh `defaults` dict, and allocates: it
respects any baseline at or below the `defaults` address. -/
theorem pres_queryDefaultsLoop (n0 n : Nat) (defaultsA : Addr) (hda : n0 ≤ defaultsA) :
    ∀ es : List (String × HVal), Pres n0 (queryDefaultsLoop n es defaultsA) := by
  intro es
  induction es with
  | nil => exact pres_of_state_id (fun _ => rfl) n0
  | cons kv rest ih =>
    obtain ⟨k, v⟩ := kv
    refine pres_bind (pres_tryKeyError ?_ (pres_pure n0 ())) (fun _ => ih)
    cases v with
    | ref vA =>
      refine pres_bind (pres_of_state_id (dictHas_state _ _) n0) (fun hasD => ?_)
      refine pres_ite n0 hasD ?_ ?_
      · exact pres_bind (pres_of_state_id (dictGet_state _ _) n0)
          (fun dv => pres_dictSet n0 defaultsA k dv hda)
      · refine pres_bind (pres_of_state_id (dictGet_state _ _) n0) (fun schemaV => ?_)
        cases schemaV with
        | ref sA =>
          refine pres_bind (pres_of_state_id (dictGet_state _ _) n0) (fun ty => ?_)
          refine pres_ite n0 _ ?_ ?_
          · exact pres_bind (pres_getDefaultObj n0 n sA)
              (fun obj => pres_dictSet n0 defaultsA k obj hda)
          · exact pres_bind (pres_of_state_id (dictGet_state _ _) n0)
              (fun dv => pres_dictSet n0 defaultsA k dv hda)
        | none => exact pres_mthrow n0 _
        | bool b => exact pres_mthrow n0 _
        | int i => exact pres_mthrow n0 _
        | str s => exact pres_mthrow n0 _
    | none => exact pres_mthrow n0 _
    | bool b => exact pres_mthrow n0 _
    | int i => exact pres_mthrow n0 _
    | str s => exact pres_mthrow n0 _

/-- `_get_query_defaults` respects the baseline frame and preserves
well-formedness: the `defaults` dict it writes into is freshly
allocated, so no pre-existing address is ever written. -/
theorem pres_getQueryDefaults (n0 n : Nat) (qdefsA : Addr) :
    Pres n0 (getQueryDefaults n qdefsA) := by
  intro h hn hw
  simp only [getQueryDefaults, bindM_app, alloc_app, dictEntries_app]
  have hwA : WFd ⟨(h.next, HObj.dict []) :: h.objs, h.next + 1⟩ :=
    wfd_cons hw h.next [] List.nodup_nil _
  have hfrA : FrameAt n0 h ⟨(h.next, HObj.dict []) :: h.objs, h.next + 1⟩ := by
    refine ⟨Nat.le_succ _, fun x hx => ?_⟩
    rw [find_cons_ne2 h.next _ _ _ x
        (fun he' => absurd (he' ▸ hx) (Nat.not_lt.mpr hn))]
    rfl
  cases hq : HeapSt.find ⟨(h.next, HObj.dict []) :: h.objs, h.next + 1⟩ qdefsA with
  | none => exact ⟨hfrA, hwA⟩
  | some o =>
    cases o with
    | dict es =>
      have hql := pres_queryDefaultsLoop n0 n h.next hn es
        ⟨(h.next, HObj.dict []) :: h.objs, h.next + 1⟩
        (Nat.le_trans hn (Nat.le_succ _)) hwA
      show FrameAt n0 h ((queryDefaultsLoop n es h.next >>= fun _ => pure h.next)
          ⟨(h.next, HObj.dict []) :: h.objs, h.next + 1⟩).2 ∧
        WFd ((queryDefaultsLoop n es h.next >>= fun _ => pure h.next)
          ⟨(h.next, HObj.dict []) :: h.objs, h.next + 1⟩).2
      rw [bindM_app]
      split
      next u h3 hq3 =>
        rw [hq3] at hql
        exact ⟨frame_trans hfrA hql.1, hql.2⟩
      next e h3 hq3 =>
        rw [hq3] at hql
        exact ⟨frame_trans hfrA hql.1, hql.2⟩

end Hp

/-- Claim C3 (amended): resolving the query-parameter defaults never
itself mutates the specification — after `_get_query_defaults` runs,
every address that existed in the heap before the call still maps to
exactly its original object (the resolver only reads existing objects
and writes freshly allocated ones) — even though the RETURNED mapping
may alias the specification, as the counterexample shows. -/
theorem query_defaults_no_spec_mutation_c3 (n : Nat) (qdefsA : Hp.Addr)
    (h : Hp.HeapSt) (hw : Hp.WFd h) (a : Hp.Addr) (ha : a < h.next) :
    ((Hp.getQueryDefaults n qdefsA) h).2.find a = h.find a := by
  have hp := Hp.pres_getQueryDefaults h.next n qdefsA h (Nat.le_refl _) hw
  exact hp.1.2 a ha

/-- The frame theorem applied to the counterexample heap: all three
specification objects are untouched by the resolver. -/
theorem query_defaults_no_spec_mutation_c3_witness :
    ((Hp.getQueryDefaults 10 2) c3heap).2.find 0 = c3heap.find 0 ∧
    ((Hp.getQueryDefaults 10 2) c3heap).2.find 1 = c3heap.find 1 ∧
    ((Hp.getQueryDefaults 10 2) c3heap).2.find 2 = c3heap.find 2 := by
  have hw : Hp.WFd c3heap := by
    intro p hp
    simp only [c3heap, List.mem_cons, List.not_mem_nil, or_false] at hp
    rcases hp with rfl | rfl | rfl
    · exact List.nodup_singleton "a"
    · exact List.nodup_singleton "default"
    · exact List.nodup_singleton "p"
  exact ⟨query_defaults_no_spec_mutation_c3 10 2 c3heap hw 0 (by decide),
    query_defaults_no_spec_mutation_c3 10 2 c3heap hw 1 (by decide),
    query_defaults_no_spec_mutation_c3 10 2 c3heap hw 2 (by decide)⟩
